import Mathlib

/-!
Shallow embedding of the hypertrace/collector PII-filter and tenant-id
processors.

Strings are modelled as byte lists (`Bytes`), since Go strings are byte
strings and the URL-encoded filter operates bytewise (percent-encoding and
decoding).  The helper `bytes` converts an ASCII Lean string literal into
its byte list; every literal used in this development is ASCII.

The repository sources embedded here are:
  * processors/piifilterprocessor/filters/urlencoded/filter.go
    (the URL-encoded filter, `RedactAttribute`),
  * the key-value filter (keyvalue package),
  * the tenant-id processor (only its tests are in the sources, so the
    processor itself is modelled from the spec, as marked below).

The URL-encoded filter calls Go's net/url standard library
(ParseQuery, Values.Encode, Parse, URL.String).  Those library functions
are embedded faithfully below, following the Go 1.16 net/url source.
Go map iteration order is unspecified; the embedding iterates parameter
groups in first-appearance order.  All observable outputs (manifest maps
queried by key, the re-encoded string, which sorts keys) are independent
of that order, so this choice is observation-equivalent.
-/

set_option maxRecDepth 4096

abbrev Bytes := List Nat

/-- Byte list of an ASCII string literal (all literals here are ASCII). -/
def bytes (s : String) : Bytes := s.data.map Char.toNat

/-- Every element is a genuine byte value. -/
def validBytes (v : Bytes) : Prop := ∀ b ∈ v, b < 256

instance : DecidablePred validBytes := fun v =>
  inferInstanceAs (Decidable (∀ b ∈ v, b < 256))

/-! ### net/url percent-encoding (Go 1.16 `escape` / `unescape`) -/

/-- Value of a hex digit byte, as in Go's `unhex` / `ishex`. -/
def hexVal (c : Nat) : Option Nat :=
  if 48 ≤ c ∧ c ≤ 57 then some (c - 48)
  else if 97 ≤ c ∧ c ≤ 102 then some (c - 87)
  else if 65 ≤ c ∧ c ≤ 70 then some (c - 55)
  else none

/-- Upper-case hex digit byte, as in Go's `"0123456789ABCDEF"[n]`. -/
def hexUpper (n : Nat) : Nat := if n < 10 then 48 + n else 55 + n

/-- The encoding modes of net/url (`encodePath`, `encodeUserPassword`,
`encodeHost`, `encodeZone`, `encodeFragment`, `encodeQueryComponent`). -/
inductive EncMode where
  | pathMode
  | userMode
  | hostMode
  | zoneMode
  | fragMode
  | queryMode
deriving DecidableEq

/-- Go 1.16 net/url `shouldEscape(c, mode)`, translated bytewise. -/
def shouldEscapeByte (c : Nat) (mode : EncMode) : Bool :=
  if (48 ≤ c && c ≤ 57) || (65 ≤ c && c ≤ 90) || (97 ≤ c && c ≤ 122) then false
  else if (mode == .hostMode || mode == .zoneMode) &&
      (c == 33 || c == 36 || c == 38 || c == 39 || c == 40 || c == 41 ||
       c == 42 || c == 43 || c == 44 || c == 59 || c == 61 || c == 58 ||
       c == 91 || c == 93 || c == 60 || c == 62 || c == 34) then false
  else if c == 45 || c == 95 || c == 46 || c == 126 then false
  else if c == 36 || c == 38 || c == 43 || c == 44 || c == 47 || c == 58 ||
      c == 59 || c == 61 || c == 63 || c == 64 then
    match mode with
    | .pathMode => c == 63
    | .userMode => c == 64 || c == 47 || c == 63 || c == 58
    | .queryMode => true
    | .fragMode => false
    | _ => true
  else if mode == .fragMode && (c == 33 || c == 40 || c == 41 || c == 42) then
    false
  else true

/-- One byte of Go's `escape(s, mode)`: space becomes a plus sign in query
components, escaped bytes become a percent triple, other bytes pass. -/
def goEscapeByte (mode : EncMode) (c : Nat) : Bytes :=
  if c = 32 ∧ mode = .queryMode then [43]
  else if shouldEscapeByte c mode then [37, hexUpper (c / 16 % 16), hexUpper (c % 16)]
  else [c]

/-- Go's `escape(s, mode)`. -/
def goEscape (mode : EncMode) (s : Bytes) : Bytes := s.flatMap (goEscapeByte mode)

/-- Go's `unescape(s, mode)`: a percent sign must be followed by two hex
digits (with the host-mode restriction on the escapes it accepts), a plus
sign decodes to a space in query components, and host or zone modes reject
ASCII bytes that ought to have been escaped. -/
def goUnescape (mode : EncMode) : Bytes → Option Bytes
  | [] => some []
  | c :: rest =>
    if c = 37 then
      match rest with
      | a :: b :: rest2 =>
        match hexVal a, hexVal b with
        | some ha, some hb =>
          if mode = .hostMode ∧ ha < 8 ∧ ¬(a = 50 ∧ b = 53) then none
          else (goUnescape mode rest2).map (fun t => (16 * ha + hb) :: t)
        | _, _ => none
      | _ => none
    else if c = 43 ∧ mode = .queryMode then
      (goUnescape mode rest).map (fun t => 32 :: t)
    else if (mode = .hostMode ∨ mode = .zoneMode) ∧ c < 128 ∧
        shouldEscapeByte c mode = true then none
    else (goUnescape mode rest).map (fun t => c :: t)

/-- Go's `QueryEscape`. -/
def queryEscape (s : Bytes) : Bytes := goEscape .queryMode s

/-- Go's `QueryUnescape`. -/
def queryUnescape (s : Bytes) : Option Bytes := goUnescape .queryMode s

/-! ### net/url `ParseQuery` (Go 1.16) -/

/-- Split a query string at every ampersand or semicolon separator, as the
Go 1.16 `parseQuery` loop does via `strings.IndexAny(key, "&;")`. -/
def splitSegs : Bytes → List Bytes
  | [] => [[]]
  | c :: rest =>
    if c == 38 || c == 59 then [] :: splitSegs rest
    else
      match splitSegs rest with
      | s :: ss => (c :: s) :: ss
      | [] => [[c]]

/-- Split a segment at its first equals sign; a missing equals sign leaves
the value empty, as in `parseQuery`. -/
def splitFirstEq : Bytes → Bytes × Bytes
  | [] => ([], [])
  | c :: rest =>
    if c = 61 then ([], rest)
    else
      let kv := splitFirstEq rest
      (c :: kv.1, kv.2)

/-- Decode one nonempty `key=value` segment of a query. -/
def parsePair (seg : Bytes) : Option (Bytes × Bytes) :=
  let kv := splitFirstEq seg
  match queryUnescape kv.1, queryUnescape kv.2 with
  | some k, some v => some (k, v)
  | _, _ => none

/-- The ordered `(key, value)` pairs of a query string; `none` when any
segment fails to decode (the filter then discards the whole result, so the
partially-filled map Go would also return is unobservable). -/
def parsePairs (s : Bytes) : Option (List (Bytes × Bytes)) :=
  ((splitSegs s).filter (fun seg => !seg.isEmpty)).mapM parsePair

abbrev StrMap := List (Bytes × Bytes)
abbrev UrlValues := List (Bytes × List Bytes)

/-- Go's `url.Values.Add`: append the value to the key's list. -/
def valuesAdd (v : UrlValues) (k val : Bytes) : UrlValues :=
  match v with
  | [] => [(k, [val])]
  | (k', vs) :: rest =>
    if k' = k then (k', vs ++ [val]) :: rest
    else (k', vs) :: valuesAdd rest k val

/-- Group ordered pairs into a `url.Values` multimap (`m[key] = append
(m[key], value)`), keyed in first-appearance order. -/
def groupParams (ps : List (Bytes × Bytes)) : UrlValues :=
  ps.foldl (fun acc p => valuesAdd acc p.1 p.2) []

/-- Go's `url.ParseQuery`, grouped into a multimap. -/
def parseQueryV (s : Bytes) : Option UrlValues := (parsePairs s).map groupParams

/-- Strict lexicographic byte order, the order of Go's `sort.Strings`. -/
def bytesLt : Bytes → Bytes → Bool
  | _, [] => false
  | [], _ :: _ => true
  | a :: as, b :: bs => if a < b then true else if b < a then false else bytesLt as bs

/-- Insert a group into a key-sorted list of groups. -/
def insertGroup (p : Bytes × List Bytes) : UrlValues → UrlValues
  | [] => [p]
  | q :: qs => if bytesLt q.1 p.1 then q :: insertGroup p qs else p :: q :: qs

/-- Sort groups by key (insertion sort), as `Encode` sorts its keys. -/
def sortGroups (v : UrlValues) : UrlValues := v.foldr insertGroup []

/-- Join encoded segments with ampersands. -/
def joinAmp : List Bytes → Bytes
  | [] => []
  | [s] => s
  | s :: rest => s ++ 38 :: joinAmp rest

/-- Go's `url.Values.Encode`: keys sorted, each value emitted as
`escape(key)=escape(value)`, joined with ampersands. -/
def valuesEncode (v : UrlValues) : Bytes :=
  joinAmp ((sortGroups v).flatMap
    (fun g => g.2.map (fun val => queryEscape g.1 ++ 61 :: queryEscape val)))

/-! ### String-keyed maps for manifests (Go `map[string]string`) -/

/-- Go map assignment `m[k] = v`, on an association list without duplicate
keys: overwrite in place or append. -/
def mapSet (m : StrMap) (k v : Bytes) : StrMap :=
  match m with
  | [] => [(k, v)]
  | (k', v') :: rest =>
    if k' = k then (k, v) :: rest else (k', v') :: mapSet rest k v

/-- Go map read `m[k]`. -/
def mapGet : StrMap → Bytes → Option Bytes
  | [], _ => none
  | (k, v) :: rest, k' => if k' = k then some v else mapGet rest k'

/-- Insert an entry into a key-sorted association list. -/
def insertEntry (p : Bytes × Bytes) : StrMap → StrMap
  | [] => [p]
  | q :: qs => if bytesLt q.1 p.1 then q :: insertEntry p qs else p :: q :: qs

/-- Canonical key-sorted form of a map, used to state map equalities
independently of insertion order. -/
def sortMap (m : StrMap) : StrMap := m.foldr insertEntry []

/-! ### Regex matcher, modelled from the spec

The `regexmatcher` package is not among the sources; only its callers are.
The definitions below are modelled from the spec, section 4.1. -/

/-- Modelled from the spec: a compiled pattern of the regexmatcher package
(absent from the sources), abstracted to its two uses there — `test` says
whether the regex matches (anywhere) in a byte string, and `replaceAll`
rewrites every match with the image of the matched substring. -/
structure Pattern where
  test : Bytes → Bool
  replaceAll : (Bytes → Bytes) → Bytes → Bytes

/-- Modelled from the spec: the closed set of redaction strategies of the
redaction package (absent from the sources).  The digest used by the hash
strategy is abstracted to a parameter; the spec only requires it to be a
fixed one-way function. -/
inductive Redactor where
  | redact
  | hashWith (digest : Bytes → Bytes)
  | truncate

/-- Modelled from the spec: `redact` produces the literal three-asterisk
marker, `hash` the digest, and `truncate` keeps the first and last byte
around the marker when the input has at least two bytes. -/
def applyRedactor : Redactor → Bytes → Bytes
  | .redact, _ => bytes "***"
  | .hashWith f, v => f v
  | .truncate, v =>
    if 2 ≤ v.length then v.take 1 ++ bytes "***" ++ v.drop (v.length - 1)
    else bytes "***"

/-- Modelled from the spec: one rule of the regexmatcher package, a pattern
bound to a strategy, with the optional session marker of key rules. -/
structure RegexRule where
  pattern : Pattern
  redactor : Redactor
  sessionIdentifier : Bool := false

/-- Modelled from the spec: the matcher holds the compiled key rules, value
rules and known key prefixes, in input order. -/
structure Matcher where
  keyRegexs : List RegexRule
  valueRegexs : List RegexRule
  prefixList : List Bytes := []

/-- Modelled from the spec: `FilterKeyRegexs` walks the key rules in order;
the first whose pattern matches the truncated key applies its strategy to
the value and reports the session flag; otherwise the value is returned
unchanged. -/
def Matcher.FilterKeyRegexs (m : Matcher) (truncatedKey _originalKey : Bytes)
    (value _path : Bytes) : Bool × Bool × Bytes :=
  match m.keyRegexs.find? (fun r => r.pattern.test truncatedKey) with
  | some r => (true, r.sessionIdentifier, applyRedactor r.redactor value)
  | none => (false, false, value)

/-- Modelled from the spec: `FilterStringValueRegexs` walks the value rules
in order and cumulatively; each rule that matches somewhere in the current
value replaces every match by its strategy applied to the matched
substring, and the flag reports whether any substitution occurred. -/
def Matcher.FilterStringValueRegexs (m : Matcher) (value : Bytes)
    (_originalKey _path : Bytes) : Bool × Bytes :=
  m.valueRegexs.foldl
    (fun acc r =>
      if r.pattern.test acc.2 then
        (true, r.pattern.replaceAll (applyRedactor r.redactor) acc.2)
      else acc)
    (false, value)

/-- Does `p` start `s`? -/
def startsWithB (p s : Bytes) : Bool := decide (s.take p.length = p)

/-- Modelled from the spec: `GetTruncatedKey` removes the longest known key
prefix, or returns the key unchanged when none matches. -/
def Matcher.GetTruncatedKey (m : Matcher) (key : Bytes) : Bytes :=
  let best := m.prefixList.foldl
    (fun acc p => if startsWithB p key && decide (acc.length < p.length) then p else acc) []
  key.drop best.length

/-- A pattern behaving as the anchored literal regexes used in the tests
(`^password$`, `^filter_value$` …): it matches exactly the given word, and
replacing every match of an exact full match rewrites the whole string. -/
def exactPattern (w : Bytes) : Pattern where
  test := fun s => decide (s = w)
  replaceAll := fun f s => if s = w then f s else s

example : hexVal 65 = some 10 := by decide
example : queryUnescape (queryEscape (bytes "mypw$")) = some (bytes "mypw$") := by decide
example : parseQueryV (bytes "user=dave&password=mypw$") =
    some [(bytes "user", [bytes "dave"]), (bytes "password", [bytes "mypw$"])] := by decide
example : valuesEncode [(bytes "user", [bytes "dave"]), (bytes "password", [bytes "***"])] =
    bytes "password=%2A%2A%2A&user=dave" := by decide

/-! ### net/url `Parse` and `URL.String` (Go 1.16), for the http.url case -/

/-- Go's `url.URL` structure, with the user information inlined. -/
structure GoURL where
  scheme : Bytes := []
  opaqueData : Bytes := []
  hasUser : Bool := false
  username : Bytes := []
  hasPassword : Bool := false
  password : Bytes := []
  host : Bytes := []
  path : Bytes := []
  rawPath : Bytes := []
  forceQuery : Bool := false
  rawQuery : Bytes := []
  fragment : Bytes := []
  rawFragment : Bytes := []
deriving DecidableEq

def containsByte (c : Nat) (s : Bytes) : Bool := s.any (fun b => b == c)

/-- Go's `stringContainsCTLByte`. -/
def containsCTL (s : Bytes) : Bool := s.any (fun c => c < 32 || c == 127)

/-- Go's `split(s, sep, cutc)`: split at the first occurrence of the
separator; with `cutc` the separator is dropped from the second part. -/
def splitFirst (sep : Nat) (cutc : Bool) : Bytes → Bytes × Bytes
  | [] => ([], [])
  | c :: rest =>
    if c == sep then ([], if cutc then rest else c :: rest)
    else
      let p := splitFirst sep cutc rest
      (c :: p.1, p.2)

/-- Split around the last occurrence of a byte, if any. -/
def splitLastByte (c : Nat) : Bytes → Option (Bytes × Bytes)
  | [] => none
  | b :: rest =>
    match splitLastByte c rest with
    | some p => some (b :: p.1, p.2)
    | none => if b == c then some ([], rest) else none

/-- Go's `getScheme`: `.error` is a malformed-scheme error, otherwise the
scheme (possibly empty) and the remainder. -/
def getSchemeAux (orig : Bytes) : Bytes → Nat → Except Unit (Bytes × Bytes)
  | [], _ => .ok ([], orig)
  | c :: rest, i =>
    if (65 ≤ c && c ≤ 90) || (97 ≤ c && c ≤ 122) then
      getSchemeAux orig rest (i + 1)
    else if (48 ≤ c && c ≤ 57) || c == 43 || c == 45 || c == 46 then
      if i == 0 then .ok ([], orig) else getSchemeAux orig rest (i + 1)
    else if c == 58 then
      if i == 0 then .error () else .ok (orig.take i, orig.drop (i + 1))
    else .ok ([], orig)

def getScheme (s : Bytes) : Except Unit (Bytes × Bytes) := getSchemeAux s s 0

/-- ASCII lower-casing, as `strings.ToLower` on a scheme. -/
def toLowerB (s : Bytes) : Bytes :=
  s.map (fun c => if 65 ≤ c ∧ c ≤ 90 then c + 32 else c)

/-- Go's `validOptionalPort`. -/
def validOptionalPort : Bytes → Bool
  | [] => true
  | 58 :: rest => rest.all (fun b => 48 ≤ b && b ≤ 57)
  | _ => false

/-- Index of the first occurrence of a byte pattern, as `strings.Index`. -/
def subIndex (pat : Bytes) : Bytes → Option Nat
  | [] => if pat.isEmpty then some 0 else none
  | c :: rest =>
    if startsWithB pat (c :: rest) then some 0
    else (subIndex pat rest).map (· + 1)

/-- Go's `parseHost`: validate the optional port (and the brackets of an
IPv6 literal, including its zone), then unescape in host mode. -/
def parseHost (host : Bytes) : Option Bytes :=
  match host with
  | 91 :: tail =>
    match splitLastByte 93 (91 :: tail) with
    | none => none
    | some p =>
      if !validOptionalPort p.2 then none
      else
        match subIndex (bytes "%25") p.1 with
        | some z =>
          match goUnescape .hostMode (p.1.take z),
              goUnescape .zoneMode (p.1.drop z),
              goUnescape .hostMode (93 :: p.2) with
          | some h1, some h2, some h3 => some (h1 ++ h2 ++ h3)
          | _, _, _ => none
        | none => goUnescape .hostMode host
  | _ =>
    match splitLastByte 58 host with
    | some p =>
      if !validOptionalPort (58 :: p.2) then none else goUnescape .hostMode host
    | none => goUnescape .hostMode host

/-- Go's `validUserinfo`. -/
def validUserinfoB (s : Bytes) : Bool :=
  s.all (fun c =>
    (65 ≤ c && c ≤ 90) || (97 ≤ c && c ≤ 122) || (48 ≤ c && c ≤ 57) ||
    c == 45 || c == 46 || c == 95 || c == 58 || c == 126 || c == 33 ||
    c == 36 || c == 38 || c == 39 || c == 40 || c == 41 || c == 42 ||
    c == 43 || c == 44 || c == 59 || c == 61 || c == 37 || c == 64)

/-- Result of `parseAuthority`: user fields and host. -/
structure AuthorityParts where
  hasUser : Bool
  username : Bytes
  hasPassword : Bool
  password : Bytes
  host : Bytes

/-- Go's `parseAuthority`. -/
def parseAuthority (authority : Bytes) : Option AuthorityParts :=
  match splitLastByte 64 authority with
  | none => (parseHost authority).map (fun h => ⟨false, [], false, [], h⟩)
  | some p =>
    match parseHost p.2 with
    | none => none
    | some h =>
      if !validUserinfoB p.1 then none
      else if !containsByte 58 p.1 then
        (goUnescape .userMode p.1).map (fun u => ⟨true, u, false, [], h⟩)
      else
        let up := splitFirst 58 true p.1
        match goUnescape .userMode up.1, goUnescape .userMode up.2 with
        | some un, some pw => some ⟨true, un, true, pw, h⟩
        | _, _ => none

/-- Go's `URL.setPath`: store the decoded path, and the raw path only when
it is not the canonical encoding. -/
def setPathParts (p : Bytes) : Option (Bytes × Bytes) :=
  (goUnescape .pathMode p).map
    (fun path => (path, if goEscape .pathMode path = p then [] else p))

/-- Go's `URL.setFragment`, analogously. -/
def setFragParts (f : Bytes) : Option (Bytes × Bytes) :=
  (goUnescape .fragMode f).map
    (fun frag => (frag, if goEscape .fragMode frag = f then [] else f))

/-- Go 1.16 `parse(rawURL, viaRequest=false)` (the fragment is already
split off); `none` is a parse error. -/
def urlParseMain (rawURL : Bytes) : Option GoURL :=
  if containsCTL rawURL then none
  else if rawURL = bytes "*" then some { path := bytes "*" }
  else
    match getScheme rawURL with
    | .error _ => none
    | .ok sr =>
      let scheme := toLowerB sr.1
      let hasFq := sr.2 ≠ [] ∧ sr.2.getLast? = some 63 ∧
        !containsByte 63 sr.2.dropLast
      let rest0 := if hasFq then sr.2.dropLast else (splitFirst 63 true sr.2).1
      let rawQuery := if hasFq then [] else (splitFirst 63 true sr.2).2
      let forceQuery := decide hasFq
      if !startsWithB (bytes "/") rest0 then
        if scheme ≠ [] then
          some { scheme := scheme, opaqueData := rest0,
                 forceQuery := forceQuery, rawQuery := rawQuery }
        else if containsByte 58 (splitFirst 47 false rest0).1 then none
        else
          (setPathParts rest0).map (fun pp =>
            { scheme := scheme, path := pp.1, rawPath := pp.2,
              forceQuery := forceQuery, rawQuery := rawQuery })
      else
        if startsWithB (bytes "//") rest0 &&
            (scheme ≠ [] || !startsWithB (bytes "///") rest0) then
          let ar := splitFirst 47 false (rest0.drop 2)
          match parseAuthority ar.1 with
          | none => none
          | some a =>
            (setPathParts ar.2).map (fun pp =>
              { scheme := scheme, hasUser := a.hasUser, username := a.username,
                hasPassword := a.hasPassword, password := a.password,
                host := a.host, path := pp.1, rawPath := pp.2,
                forceQuery := forceQuery, rawQuery := rawQuery })
        else
          (setPathParts rest0).map (fun pp =>
            { scheme := scheme, path := pp.1, rawPath := pp.2,
              forceQuery := forceQuery, rawQuery := rawQuery })

/-- Go's `url.Parse`: split the fragment off first. -/
def urlParse (rawURL : Bytes) : Except Unit GoURL :=
  let uf := splitFirst 35 true rawURL
  match urlParseMain uf.1 with
  | none => .error ()
  | some u =>
    if uf.2 = [] then .ok u
    else
      match setFragParts uf.2 with
      | none => .error ()
      | some fp => .ok { u with fragment := fp.1, rawFragment := fp.2 }

/-- Go's `validEncoded`. -/
def validEncodedB (s : Bytes) (mode : EncMode) : Bool :=
  s.all (fun c =>
    c == 33 || c == 36 || c == 38 || c == 39 || c == 40 || c == 41 ||
    c == 42 || c == 43 || c == 44 || c == 59 || c == 61 || c == 58 ||
    c == 64 || c == 91 || c == 93 || c == 37 || !shouldEscapeByte c mode)

/-- Go's `URL.EscapedPath`. -/
def escapedPath (u : GoURL) : Bytes :=
  if u.rawPath ≠ [] ∧ validEncodedB u.rawPath .pathMode ∧
      goUnescape .pathMode u.rawPath = some u.path then u.rawPath
  else if u.path = bytes "*" then bytes "*"
  else goEscape .pathMode u.path

/-- Go's `URL.EscapedFragment`. -/
def escapedFragment (u : GoURL) : Bytes :=
  if u.rawFragment ≠ [] ∧ validEncodedB u.rawFragment .fragMode ∧
      goUnescape .fragMode u.rawFragment = some u.fragment then u.rawFragment
  else goEscape .fragMode u.fragment

/-- Go's `Userinfo.String`. -/
def userinfoString (u : GoURL) : Bytes :=
  goEscape .userMode u.username ++
    (if u.hasPassword then 58 :: goEscape .userMode u.password else [])

/-- Go's `URL.String`. -/
def urlString (u : GoURL) : Bytes :=
  let base :=
    (if u.scheme ≠ [] then u.scheme ++ [58] else []) ++
    (if u.opaqueData ≠ [] then u.opaqueData
     else
       let auth :=
         if u.scheme ≠ [] ∨ u.host ≠ [] ∨ u.hasUser then
           (if u.host ≠ [] ∨ u.path ≠ [] ∨ u.hasUser then bytes "//" else []) ++
           (if u.hasUser then userinfoString u ++ [64] else []) ++
           (if u.host ≠ [] then goEscape .hostMode u.host else [])
         else []
       let p0 := escapedPath u
       let p := if p0 ≠ [] ∧ p0.head? ≠ some 47 ∧ u.host ≠ [] then 47 :: p0 else p0
       let dotSlash :=
         if u.scheme = [] ∧ auth = [] then
           match subIndex [58] p with
           | some i => if containsByte 47 (p.take i) then [] else bytes "./"
           | none => []
         else []
       auth ++ dotSlash ++ p) ++
    (if u.forceQuery ∨ u.rawQuery ≠ [] then 63 :: u.rawQuery else []) ++
    (if u.fragment ≠ [] then 35 :: escapedFragment u else [])
  base

example : (urlParse (bytes "http://x: namedport")).isOk = false := by decide
example :
    (urlParse (bytes "http://traceshop.dev/login?username=george&password=washington")).toOption.map
      (fun u => (u.rawQuery, u.host, u.path)) =
    some (bytes "username=george&password=washington", bytes "traceshop.dev",
      bytes "/login") := by decide

/-! ### The URL-encoded filter
(processors/piifilterprocessor/filters/urlencoded/filter.go) -/

instance {ε α} [DecidableEq ε] [DecidableEq α] : DecidableEq (Except ε α) := fun x y =>
  match x, y with
  | .ok a, .ok b =>
    if h : a = b then .isTrue (congrArg Except.ok h)
    else .isFalse (fun hh => h (Except.ok.inj hh))
  | .error a, .error b =>
    if h : a = b then .isTrue (congrArg Except.error h)
    else .isFalse (fun hh => h (Except.error.inj hh))
  | .ok _, .error _ => .isFalse (fun hh => Except.noConfusion hh)
  | .error _, .ok _ => .isFalse (fun hh => Except.noConfusion hh)

/-- The error value of `filters.WrapError(filters.ErrUnprocessableValue, …)`
(the wrapped detail message is irrelevant to the claims). -/
inductive FilterError where
  | unprocessableValue
deriving DecidableEq

/-- `processors.ParsedAttribute`: the manifest of a processed attribute. -/
structure ParsedAttribute where
  Redacted : StrMap
  Flattened : StrMap
deriving DecidableEq

def urlAttributeStr : Bytes := bytes "http.url"

/-- The fully-qualified name `fmt.Sprintf("%s.%s", key, param)`. -/
def fqnB (key param : Bytes) : Bytes := key ++ 46 :: param

/-- Decimal digits of a natural number, for the `[%d]` index in paths. -/
def natBytes (n : Nat) : Bytes := (Nat.toDigits 10 n).map Char.toNat

/-- The match path of a leaf (filter.go lines 62-69): the bare parameter
for the http.url attribute, otherwise a dollar path with an index when the
parameter is multi-valued. -/
def leafPath (isURLAttr : Bool) (param : Bytes) (nvals idx : Nat) : Bytes :=
  if isURLAttr then param
  else if 1 < nvals then bytes "$." ++ param ++ 91 :: natBytes idx ++ [93]
  else bytes "$." ++ param

/-- The mutable state of the loop in `RedactAttribute`: the outgoing
`url.Values` and the two manifest maps. -/
structure FilterState where
  vals : UrlValues
  red : StrMap
  flat : StrMap
deriving DecidableEq

/-- The inner loop body of `RedactAttribute` (filter.go lines 60-83): record
the leaf in `Flattened`, then try the key rules, then the value rules;
a redacted leaf is recorded in `Redacted` under its original value and its
replacement is added to the outgoing values. -/
def procLeaf (m : Matcher) (key : Bytes) (isURLAttr : Bool) (param : Bytes)
    (nvals : Nat) (st : FilterState) (iv : Nat × Bytes) : FilterState :=
  let value := iv.2
  let fqn := fqnB key param
  let flat := mapSet st.flat fqn value
  let path := leafPath isURLAttr param nvals iv.1
  let kr := m.FilterKeyRegexs param key value path
  if kr.1 then
    { vals := valuesAdd st.vals param kr.2.2, red := mapSet st.red fqn value,
      flat := flat }
  else
    let vr := m.FilterStringValueRegexs value key path
    if vr.1 then
      { vals := valuesAdd st.vals param vr.2, red := mapSet st.red fqn value,
        flat := flat }
    else
      { vals := valuesAdd st.vals param value, red := st.red, flat := flat }

/-- The outer loop body: all indexed values of one parameter. -/
def procGroup (m : Matcher) (key : Bytes) (isURLAttr : Bool)
    (st : FilterState) (g : Bytes × List Bytes) : FilterState :=
  g.2.enum.foldl (procLeaf m key isURLAttr g.1 g.2.length) st

/-- The whole loop of `RedactAttribute` over the parsed parameters. -/
def procAll (m : Matcher) (key : Bytes) (isURLAttr : Bool)
    (groups : UrlValues) : FilterState :=
  groups.foldl (procGroup m key isURLAttr) ⟨[], [], []⟩

/-- `urlEncodedFilter.RedactAttribute` (filter.go lines 30-97).  The Go
method mutates the attribute value in place and returns the manifest and
error; here the final attribute string is the second component. -/
def RedactAttribute (m : Matcher) (key : Bytes) (value : Bytes) :
    Except FilterError (Option ParsedAttribute) × Bytes :=
  if value = [] then (.ok none, value)
  else if key = urlAttributeStr then
    match urlParse value with
    | .error _ => (.error .unprocessableValue, value)
    | .ok u =>
      match parseQueryV u.rawQuery with
      | none => (.error .unprocessableValue, value)
      | some groups =>
        let st := procAll m key true groups
        if st.red ≠ [] then
          (.ok (some ⟨st.red, st.flat⟩),
            urlString { u with rawQuery := valuesEncode st.vals })
        else (.ok (some ⟨st.red, st.flat⟩), value)
  else
    match parseQueryV value with
    | none => (.error .unprocessableValue, value)
    | some groups =>
      let st := procAll m key false groups
      if st.red ≠ [] then (.ok (some ⟨st.red, st.flat⟩), valuesEncode st.vals)
      else (.ok (some ⟨st.red, st.flat⟩), value)

/-! ### The key-value filter (keyvalue package) -/

/-- `filters.Attribute`: a side attribute emitted by a filter. -/
structure SideAttribute where
  key : Bytes
  value : Bytes
deriving DecidableEq

/-- `keyValueFilter.RedactAttribute`.  The key-value filter never returns
an error; the result carries the optional manifest, the optional session
side-attribute, and the final attribute string. -/
def kvRedactAttribute (m : Matcher) (key : Bytes) (value : Bytes) :
    (Option ParsedAttribute × Option SideAttribute) × Bytes :=
  if value = [] then ((none, none), value)
  else
    let truncatedKey := m.GetTruncatedKey key
    let kr := m.FilterKeyRegexs truncatedKey key value []
    if kr.1 then
      let newAttr := if kr.2.1 then some ⟨bytes "session.id", kr.2.2⟩ else none
      ((some ⟨[(key, value)], []⟩, newAttr), kr.2.2)
    else
      let vr := m.FilterStringValueRegexs value key []
      if vr.1 then ((some ⟨[(key, value)], []⟩, none), vr.2)
      else ((none, none), value)

/-! ### The tenant-id processor, modelled from the spec

Only the tenantidprocessor tests are among the sources; the processor
itself (`processor.go`) is not, so it is modelled from the spec,
section 4.5, and from the behaviour its tests pin down. -/

/-- Modelled from the spec: the tenant-id processor's configuration. -/
structure TenantProcessor where
  tenantIDHeaderName : String
  tenantIDAttributeKey : String

/-- Transport metadata: header name to list of values (gRPC metadata). -/
abbrev Metadata := List (String × List String)

/-- An attribute (or label) map of a span or metric datapoint. -/
abbrev AttrMap := List (String × String)

inductive TenantError where
  | missingMetadata
  | missingHeader
  | multipleHeaders
deriving DecidableEq

/-- The values recorded under a header name. -/
def mdGet (md : Metadata) (name : String) : List String :=
  ((md.find? (fun e => e.1 == name)).map (fun e => e.2)).getD []

/-- Map update for string attribute maps (`AttributeMap.Upsert`). -/
def attrUpsert (m : AttrMap) (k v : String) : AttrMap :=
  match m with
  | [] => [(k, v)]
  | (k', v') :: rest =>
    if k' = k then (k, v) :: rest else (k', v') :: attrUpsert rest k v

/-- Modelled from the spec: extract the tenant id from the request context.
No metadata in the context is the could-not-extract-headers error; a
missing header and multiple header values are the two validation errors;
exactly one non-empty value succeeds.  The spec's non-empty validation
names no error class of its own, so a single empty value fails as a
missing header. -/
def extractTenantID (p : TenantProcessor) (md : Option Metadata) :
    Except TenantError String :=
  match md with
  | none => .error .missingMetadata
  | some md =>
    match mdGet md p.tenantIDHeaderName with
    | [] => .error .missingHeader
    | [v] => if v = "" then .error .missingHeader else .ok v
    | _ :: _ :: _ => .error .multipleHeaders

/-- Modelled from the spec: `processor.ProcessTraces` stamps the tenant id
attribute onto every span of the batch (spans abstracted to their
attribute maps; the processor never reshapes the batch tree). -/
def ProcessTraces (p : TenantProcessor) (md : Option Metadata)
    (traces : List AttrMap) : Except TenantError (List AttrMap) :=
  (extractTenantID p md).map
    (fun tid => traces.map (fun s => attrUpsert s p.tenantIDAttributeKey tid))

/-- Modelled from the spec: `processor.ProcessMetrics` stamps the tenant id
onto every metric datapoint's label map. -/
def ProcessMetrics (p : TenantProcessor) (md : Option Metadata)
    (dps : List AttrMap) : Except TenantError (List AttrMap) :=
  (extractTenantID p md).map
    (fun tid => dps.map (fun s => attrUpsert s p.tenantIDAttributeKey tid))

/-! ### Concrete rulesets used by the end-to-end scenarios -/

/-- The ruleset of the sensitive-key scenarios: key rule `^password$`
bound to the Redact strategy. -/
def passwordKeyMatcher : Matcher where
  keyRegexs := [{ pattern := exactPattern (bytes "password"), redactor := .redact }]
  valueRegexs := []

/-- The ruleset of the sensitive-value scenario: value rule
`^filter_value$` bound to the Redact strategy. -/
def filterValueMatcher : Matcher where
  keyRegexs := []
  valueRegexs := [{ pattern := exactPattern (bytes "filter_value"), redactor := .redact }]

/-! ### Basic lemmas on the map operations -/

theorem mapGet_mapSet (m : StrMap) (k v p : Bytes) :
    mapGet (mapSet m k v) p = if p = k then some v else mapGet m p := by
  induction m with
  | nil => simp [mapSet, mapGet]
  | cons q rest ih =>
    obtain ⟨k', v'⟩ := q
    by_cases hk : k' = k <;> by_cases hp : p = k' <;>
      simp_all [mapSet, mapGet]

theorem mapSet_ne_nil (m : StrMap) (k v : Bytes) : mapSet m k v ≠ [] := by
  cases m with
  | nil => simp [mapSet]
  | cons q rest =>
    obtain ⟨k', v'⟩ := q
    by_cases hk : k' = k <;> simp [mapSet, hk]

/-! ### Claim C9: empty attribute values are a no-op for both filters -/

/-- C9: on an empty attribute value both the URL-encoded filter and the
key-value filter return no manifest, no side attribute and no error, and
leave the attribute unchanged. -/
theorem c9_empty_value_no_op (m : Matcher) (key : Bytes) :
    RedactAttribute m key [] = (.ok none, []) ∧
    kvRedactAttribute m key [] = ((none, none), []) :=
  ⟨rfl, rfl⟩

/-! ### Claim C5: URL parse failures are atomic errors -/

/-- C5: whenever the string value of an http.url attribute fails to parse
as a URL, the URL-encoded filter returns the unprocessable-value error, no
manifest, and leaves the attribute value unchanged. -/
theorem c5_unparseable_url_error (m : Matcher) (value : Bytes) (e : Unit)
    (h : urlParse value = .error e) :
    RedactAttribute m (bytes "http.url") value =
      (.error .unprocessableValue, value) := by
  by_cases hv : value = []
  · subst hv
    have hok : (urlParse ([] : Bytes)).isOk = true := by decide
    rw [h] at hok
    simp [Except.isOk, Except.toBool] at hok
  · unfold RedactAttribute
    rw [if_neg hv, if_pos (show (bytes "http.url") = urlAttributeStr from rfl), h]

/-- C5 witness: the malformed URL of the test scenario. -/
theorem c5_unparseable_url_error_witness :
    urlParse (bytes "http://x: namedport") = .error () ∧
    RedactAttribute passwordKeyMatcher (bytes "http.url")
        (bytes "http://x: namedport") =
      (.error .unprocessableValue, bytes "http://x: namedport") :=
  ⟨by decide,
   c5_unparseable_url_error passwordKeyMatcher (bytes "http://x: namedport") ()
     (by decide)⟩

/-! ### Claim C10: no redaction means the value is untouched -/

/-- C10: when the URL-encoded filter succeeds with an empty Redacted map,
the attribute's string value is left byte-for-byte unchanged (the form is
not re-encoded). -/
theorem c10_no_redaction_keeps_value (m : Matcher) (key value : Bytes)
    (attr : ParsedAttribute) (out : Bytes)
    (h : RedactAttribute m key value = (.ok (some attr), out))
    (hred : attr.Redacted = []) : out = value := by
  obtain ⟨R, F⟩ := attr
  have hred' : R = [] := hred
  subst hred'
  unfold RedactAttribute at h
  by_cases hv : value = []
  · rw [if_pos hv] at h
    simp at h
  · rw [if_neg hv] at h
    by_cases hk : key = urlAttributeStr
    · rw [if_pos hk] at h
      cases hu : urlParse value with
      | error e => rw [hu] at h; simp at h
      | ok u =>
        rw [hu] at h
        simp only [] at h
        cases hq : parseQueryV u.rawQuery with
        | none => rw [hq] at h; simp at h
        | some groups =>
          rw [hq] at h
          simp only [] at h
          split at h <;> simp at h <;>
            first
            | exact h.2.symm
            | exact absurd h.1.1 (by assumption)
    · rw [if_neg hk] at h
      cases hq : parseQueryV value with
      | none => rw [hq] at h; simp at h
      | some groups =>
        rw [hq] at h
        simp only [] at h
        split at h <;> simp at h <;>
          first
          | exact h.2.symm
          | exact absurd h.1.1 (by assumption)

/-- C10 witness: a parsed form with no matching rule keeps its exact
string, here with its original (unsorted, unescaped) parameter order. -/
theorem c10_no_redaction_keeps_value_witness :
    RedactAttribute passwordKeyMatcher (bytes "k") (bytes "b=2&a=1") =
      (.ok (some ⟨[], [(bytes "k.b", bytes "2"), (bytes "k.a", bytes "1")]⟩),
        bytes "b=2&a=1") ∧
    (bytes "b=2&a=1" : Bytes) = bytes "b=2&a=1" :=
  ⟨by decide,
   c10_no_redaction_keeps_value passwordKeyMatcher (bytes "k") (bytes "b=2&a=1")
     ⟨[], [(bytes "k.b", bytes "2"), (bytes "k.a", bytes "1")]⟩
     (bytes "b=2&a=1") (by decide) rfl⟩

/-! ### Claim C1: the sensitive-key scenario

The manifest is exactly as claimed, but the outgoing value is not
`password=***&user=dave`: `url.Values.Encode` percent-escapes the
asterisks of the redaction marker, producing `password=%2A%2A%2A&user=dave`
(the test only compares the decoded values, so it cannot see this). -/

/-- C1 (counterexample): at the claimed input, the claimed conjunction of
manifest and outgoing value is false, because the outgoing value carries
the percent-escaped marker. -/
theorem c1_counterexample :
    ¬ (RedactAttribute passwordKeyMatcher (bytes "password")
         (bytes "user=dave&password=mypw$") =
       (.ok (some ⟨[(bytes "password.password", bytes "mypw$")],
                   [(bytes "password.user", bytes "dave"),
                    (bytes "password.password", bytes "mypw$")]⟩),
         bytes "password=***&user=dave")) := by decide

/-- C1 (amended): the call succeeds with the claimed Redacted and
Flattened maps, and rewrites the value to `password=%2A%2A%2A&user=dave` —
the claimed outgoing value with the redaction marker percent-escaped by
the form re-encoding. -/
theorem c1_sensitive_key_scenario :
    RedactAttribute passwordKeyMatcher (bytes "password")
      (bytes "user=dave&password=mypw$") =
    (.ok (some ⟨[(bytes "password.password", bytes "mypw$")],
                [(bytes "password.user", bytes "dave"),
                 (bytes "password.password", bytes "mypw$")]⟩),
      bytes "password=%2A%2A%2A&user=dave") := by decide

/-! ### Claim C6: multi-valued parameters, last write wins -/

/-- C6 (counterexample): the manifest is as claimed, but the outgoing
value does not contain `password=***&password=***`; the markers are
percent-escaped. -/
theorem c6_counterexample :
    ¬ ((RedactAttribute passwordKeyMatcher (bytes "password")
          (bytes "user=dave&password=mypw$&password=mypw#")).1 =
        .ok (some ⟨[(bytes "password.password", bytes "mypw#")],
                   [(bytes "password.user", bytes "dave"),
                    (bytes "password.password", bytes "mypw#")]⟩) ∧
       (subIndex (bytes "password=***&password=***")
         (RedactAttribute passwordKeyMatcher (bytes "password")
           (bytes "user=dave&password=mypw$&password=mypw#")).2).isSome = true) := by
  decide

/-- C6 (amended): both values of the multi-valued parameter are processed,
the manifest records only the last value under the parameter's name in
both maps (last write wins), and the outgoing value contains
`password=%2A%2A%2A&password=%2A%2A%2A` — the claimed substring with the
markers percent-escaped by the form re-encoding. -/
theorem c6_multivalued_last_write_wins :
    RedactAttribute passwordKeyMatcher (bytes "password")
      (bytes "user=dave&password=mypw$&password=mypw#") =
    (.ok (some ⟨[(bytes "password.password", bytes "mypw#")],
                [(bytes "password.user", bytes "dave"),
                 (bytes "password.password", bytes "mypw#")]⟩),
      bytes "password=%2A%2A%2A&password=%2A%2A%2A&user=dave") ∧
    (subIndex (bytes "password=%2A%2A%2A&password=%2A%2A%2A")
      (RedactAttribute passwordKeyMatcher (bytes "password")
        (bytes "user=dave&password=mypw$&password=mypw#")).2).isSome = true := by
  decide

/-! ### Claim C7: key-rule matching takes precedence over value rules -/

theorem filterKey_vr (m : Matcher) (vr : List RegexRule) (a b c d : Bytes) :
    Matcher.FilterKeyRegexs { m with valueRegexs := vr } a b c d =
      m.FilterKeyRegexs a b c d := rfl

theorem filterVal_kr (m : Matcher) (kr : List RegexRule) (a b c : Bytes) :
    Matcher.FilterStringValueRegexs { m with keyRegexs := kr } a b c =
      m.FilterStringValueRegexs a b c := rfl

theorem filterKey_empty (m : Matcher) (a b c d : Bytes) :
    Matcher.FilterKeyRegexs { m with keyRegexs := [] } a b c d =
      (false, false, c) := rfl

theorem truncKey_vr (m : Matcher) (vr : List RegexRule) (k : Bytes) :
    Matcher.GetTruncatedKey { m with valueRegexs := vr } k =
      m.GetTruncatedKey k := rfl

theorem truncKey_kr (m : Matcher) (kr : List RegexRule) (k : Bytes) :
    Matcher.GetTruncatedKey { m with keyRegexs := kr } k =
      m.GetTruncatedKey k := rfl

/-- C7: for a leaf of the URL-encoded filter and for the key-value filter,
key-rule matching and value-rule matching are mutually exclusive with
key-match precedence: when a key rule fires, the result does not depend on
the value rules at all; when no key rule fires, the result is the same as
if there were no key rules — pure value-rule processing. -/
theorem c7_key_match_precedence (m : Matcher) (vr : List RegexRule)
    (key value : Bytes) (isURLAttr : Bool) (param : Bytes) (nvals : Nat)
    (st : FilterState) (iv : Nat × Bytes) :
    ((m.FilterKeyRegexs param key iv.2 (leafPath isURLAttr param nvals iv.1)).1 = true →
      procLeaf { m with valueRegexs := vr } key isURLAttr param nvals st iv =
        procLeaf m key isURLAttr param nvals st iv) ∧
    ((m.FilterKeyRegexs param key iv.2 (leafPath isURLAttr param nvals iv.1)).1 = false →
      procLeaf m key isURLAttr param nvals st iv =
        procLeaf { m with keyRegexs := [] } key isURLAttr param nvals st iv) ∧
    ((m.FilterKeyRegexs (m.GetTruncatedKey key) key value []).1 = true →
      kvRedactAttribute { m with valueRegexs := vr } key value =
        kvRedactAttribute m key value) ∧
    ((m.FilterKeyRegexs (m.GetTruncatedKey key) key value []).1 = false →
      kvRedactAttribute m key value =
        kvRedactAttribute { m with keyRegexs := [] } key value) := by
  refine ⟨?_, ?_, ?_, ?_⟩
  · intro hkey
    simp [procLeaf, filterKey_vr, hkey]
  · intro hkey
    simp [procLeaf, filterKey_vr, filterVal_kr, filterKey_empty, hkey]
  · intro hkey
    by_cases hv : value = []
    · simp [kvRedactAttribute, hv]
    · simp [kvRedactAttribute, hv, filterKey_vr, truncKey_vr, hkey]
  · intro hkey
    by_cases hv : value = []
    · simp [kvRedactAttribute, hv]
    · simp [kvRedactAttribute, hv, filterKey_empty, filterVal_kr, truncKey_kr, hkey]

/-- C7 witness: with the password key rule and the filter-value value rule
present together, a leaf whose key matches is processed identically with
and without the value rules, for both filters. -/
theorem c7_key_match_precedence_witness :
    procLeaf { passwordKeyMatcher with valueRegexs := filterValueMatcher.valueRegexs }
        (bytes "password") false (bytes "password") 1 ⟨[], [], []⟩ (0, bytes "x") =
      procLeaf passwordKeyMatcher (bytes "password") false (bytes "password") 1
        ⟨[], [], []⟩ (0, bytes "x") ∧
    kvRedactAttribute { passwordKeyMatcher with valueRegexs := filterValueMatcher.valueRegexs }
        (bytes "password") (bytes "x") =
      kvRedactAttribute passwordKeyMatcher (bytes "password") (bytes "x") :=
  ⟨(c7_key_match_precedence passwordKeyMatcher filterValueMatcher.valueRegexs
      (bytes "password") (bytes "x") false (bytes "password") 1 ⟨[], [], []⟩
      (0, bytes "x")).1 (by decide),
   (c7_key_match_precedence passwordKeyMatcher filterValueMatcher.valueRegexs
      (bytes "password") (bytes "x") false (bytes "password") 1 ⟨[], [], []⟩
      (0, bytes "x")).2.2.1 (by decide)⟩

/-! ### Claim C8: tenant-id header validation and stamping -/

/-- Go map read for string attribute maps. -/
def attrGet : AttrMap → String → Option String
  | [], _ => none
  | (k, v) :: rest, k' => if k' = k then some v else attrGet rest k'

theorem attrGet_attrUpsert (m : AttrMap) (k v p : String) :
    attrGet (attrUpsert m k v) p = if p = k then some v else attrGet m p := by
  induction m with
  | nil => simp [attrUpsert, attrGet]
  | cons q rest ih =>
    obtain ⟨k', v'⟩ := q
    by_cases hk : k' = k <;> by_cases hp : p = k' <;>
      simp_all [attrUpsert, attrGet]

/-- C8 (counterexample): the claim's success clause fails on a single
empty header value: the spec's non-empty validation rejects it with the
missing-header error instead of stamping the empty string. -/
theorem c8_counterexample :
    ProcessTraces ⟨"x-tenant-id", "tenant-id"⟩
        (some [("x-tenant-id", [""])]) [[("k", "v")]] ≠
      .ok [[("k", "v"), ("tenant-id", "")]] := by
  decide

/-- C8 (amended): with metadata present, the tenant processor fails with
the missing-header error when the configured header has no value or a
single empty value, fails with the multiple-headers error when it has more
than one value, and with exactly one non-empty value succeeds on traces
and metrics alike, stamping the tenant attribute onto every span (and
label map); empty batches succeed trivially and are returned unchanged. -/
theorem c8_tenant_processor (p : TenantProcessor) (md : Metadata)
    (traces dps : List AttrMap) :
    (mdGet md p.tenantIDHeaderName = [] →
      ProcessTraces p (some md) traces = .error .missingHeader ∧
      ProcessMetrics p (some md) dps = .error .missingHeader) ∧
    (mdGet md p.tenantIDHeaderName = [""] →
      ProcessTraces p (some md) traces = .error .missingHeader ∧
      ProcessMetrics p (some md) dps = .error .missingHeader) ∧
    (∀ v w rest, mdGet md p.tenantIDHeaderName = v :: w :: rest →
      ProcessTraces p (some md) traces = .error .multipleHeaders ∧
      ProcessMetrics p (some md) dps = .error .multipleHeaders) ∧
    (∀ v, v ≠ "" → mdGet md p.tenantIDHeaderName = [v] →
      ProcessTraces p (some md) traces =
        .ok (traces.map (fun s => attrUpsert s p.tenantIDAttributeKey v)) ∧
      ProcessMetrics p (some md) dps =
        .ok (dps.map (fun s => attrUpsert s p.tenantIDAttributeKey v)) ∧
      (∀ s, s ∈ traces →
        attrGet (attrUpsert s p.tenantIDAttributeKey v) p.tenantIDAttributeKey =
          some v) ∧
      ProcessTraces p (some md) [] = .ok [] ∧
      ProcessMetrics p (some md) [] = .ok []) := by
  refine ⟨?_, ?_, ?_, ?_⟩
  · intro h
    constructor <;> simp [ProcessTraces, ProcessMetrics, extractTenantID, Except.map, h]
  · intro h
    constructor <;> simp [ProcessTraces, ProcessMetrics, extractTenantID, Except.map, h]
  · intro v w rest h
    constructor <;> simp [ProcessTraces, ProcessMetrics, extractTenantID, Except.map, h]
  · intro v hv h
    refine ⟨?_, ?_, ?_, ?_, ?_⟩
    · simp [ProcessTraces, extractTenantID, Except.map, h, hv]
    · simp [ProcessMetrics, extractTenantID, Except.map, h, hv]
    · intro s _
      simp [attrGet_attrUpsert]
    · simp [ProcessTraces, extractTenantID, Except.map, h, hv]
    · simp [ProcessMetrics, extractTenantID, Except.map, h, hv]

/-- C8 witness: the metadata shapes of the tenantidprocessor tests, plus
the empty-value validation failure. -/
theorem c8_tenant_processor_witness :
    ProcessTraces ⟨"x-tenant-id", "tenant-id"⟩ (some []) [[("k", "v")]] =
      .error .missingHeader ∧
    ProcessTraces ⟨"x-tenant-id", "tenant-id"⟩
        (some [("x-tenant-id", [""])]) [[("k", "v")]] =
      .error .missingHeader ∧
    ProcessTraces ⟨"x-tenant-id", "tenant-id"⟩
        (some [("x-tenant-id", ["jdoe", "jdoe2"])]) [[("k", "v")]] =
      .error .multipleHeaders ∧
    ProcessTraces ⟨"x-tenant-id", "tenant-id"⟩
        (some [("x-tenant-id", ["jdoe"])]) [[("k", "v")]] =
      .ok [[("k", "v"), ("tenant-id", "jdoe")]] :=
  ⟨((c8_tenant_processor ⟨"x-tenant-id", "tenant-id"⟩ [] [[("k", "v")]] []).1
      (by decide)).1,
   ((c8_tenant_processor ⟨"x-tenant-id", "tenant-id"⟩
      [("x-tenant-id", [""])] [[("k", "v")]] []).2.1 (by decide)).1,
   ((c8_tenant_processor ⟨"x-tenant-id", "tenant-id"⟩
      [("x-tenant-id", ["jdoe", "jdoe2"])] [[("k", "v")]] []).2.2.1 "jdoe" "jdoe2" []
      (by decide)).1,
   ((c8_tenant_processor ⟨"x-tenant-id", "tenant-id"⟩
      [("x-tenant-id", ["jdoe"])] [[("k", "v")]] []).2.2.2 "jdoe" (by decide)
      (by decide)).1⟩

/-! ### Fold invariants of the RedactAttribute loop -/

theorem foldl_keepsP {α β : Type} (P : β → Prop) (f : β → α → β) (l : List α)
    (b : β) (h0 : P b) (hstep : ∀ b a, P b → P (f b a)) : P (l.foldl f b) := by
  induction l generalizing b with
  | nil => exact h0
  | cons a l ih => exact ih _ (hstep _ _ h0)

/-- One leaf step keeps the Redacted domain inside the Flattened domain. -/
theorem procLeaf_keeps_subset (m : Matcher) (key : Bytes) (isURLAttr : Bool)
    (param : Bytes) (nvals : Nat) (st : FilterState) (iv : Nat × Bytes)
    (hP : ∀ p, mapGet st.red p ≠ none → mapGet st.flat p ≠ none) :
    ∀ p, mapGet (procLeaf m key isURLAttr param nvals st iv).red p ≠ none →
      mapGet (procLeaf m key isURLAttr param nvals st iv).flat p ≠ none := by
  have core : ∀ red flat : StrMap, ∀ fqn v : Bytes,
      (∀ p, mapGet red p ≠ none → mapGet flat p ≠ none) →
      ∀ p, mapGet (mapSet red fqn v) p ≠ none →
        mapGet (mapSet flat fqn v) p ≠ none := by
    intro red flat fqn v hsub p hp
    rw [mapGet_mapSet] at hp ⊢
    by_cases hpf : p = fqn
    · simp [hpf]
    · rw [if_neg hpf] at hp ⊢
      exact hsub p hp
  have keep : ∀ red flat : StrMap, ∀ fqn v : Bytes,
      (∀ p, mapGet red p ≠ none → mapGet flat p ≠ none) →
      ∀ p, mapGet red p ≠ none → mapGet (mapSet flat fqn v) p ≠ none := by
    intro red flat fqn v hsub p hp
    rw [mapGet_mapSet]
    by_cases hpf : p = fqn
    · simp [hpf]
    · rw [if_neg hpf]
      exact hsub p hp
  cases hkr : (m.FilterKeyRegexs param key iv.2
      (leafPath isURLAttr param nvals iv.1)).1 with
  | true =>
    simp only [procLeaf, hkr, if_true]
    exact core st.red st.flat _ _ hP
  | false =>
    cases hvr : (m.FilterStringValueRegexs iv.2 key
        (leafPath isURLAttr param nvals iv.1)).1 with
    | true =>
      simp only [procLeaf, hkr, hvr, Bool.false_eq_true, if_false, if_true]
      exact core st.red st.flat _ _ hP
    | false =>
      simp only [procLeaf, hkr, hvr, Bool.false_eq_true, if_false]
      exact keep st.red st.flat _ _ hP

/-- The whole loop keeps the Redacted domain inside the Flattened domain. -/
theorem procAll_keeps_subset (m : Matcher) (key : Bytes) (isURLAttr : Bool)
    (groups : UrlValues) :
    ∀ p, mapGet (procAll m key isURLAttr groups).red p ≠ none →
      mapGet (procAll m key isURLAttr groups).flat p ≠ none := by
  unfold procAll
  refine foldl_keepsP
    (fun (st : FilterState) => ∀ p, mapGet st.red p ≠ none → mapGet st.flat p ≠ none)
    _ _ _ (by intro p hp; simp [mapGet] at hp) ?_
  intro st g hP
  unfold procGroup
  exact foldl_keepsP _ _ _ _ hP
    (fun st iv h => procLeaf_keeps_subset m key isURLAttr g.1 g.2.length st iv h)

/-! ### Claim C4: Redacted keys are a subset of Flattened keys -/

/-- C4: whenever the URL-encoded filter succeeds on a non-empty value,
every dotted path recorded in Redacted is also present in Flattened. -/
theorem c4_redacted_subset_flattened (m : Matcher) (key value : Bytes)
    (attr : ParsedAttribute) (out : Bytes)
    (h : RedactAttribute m key value = (.ok (some attr), out)) :
    ∀ p, mapGet attr.Redacted p ≠ none → mapGet attr.Flattened p ≠ none := by
  obtain ⟨R, F⟩ := attr
  unfold RedactAttribute at h
  by_cases hv : value = []
  · rw [if_pos hv] at h
    simp at h
  · rw [if_neg hv] at h
    by_cases hk : key = urlAttributeStr
    · rw [if_pos hk] at h
      cases hu : urlParse value with
      | error e => rw [hu] at h; simp at h
      | ok u =>
        rw [hu] at h
        simp only [] at h
        cases hq : parseQueryV u.rawQuery with
        | none => rw [hq] at h; simp at h
        | some groups =>
          rw [hq] at h
          simp only [] at h
          split at h <;>
            · simp at h
              obtain ⟨⟨h1, h2⟩, h3⟩ := h
              subst h1
              subst h2
              exact procAll_keeps_subset m key true groups
    · rw [if_neg hk] at h
      cases hq : parseQueryV value with
      | none => rw [hq] at h; simp at h
      | some groups =>
        rw [hq] at h
        simp only [] at h
        split at h <;>
          · simp at h
            obtain ⟨⟨h1, h2⟩, h3⟩ := h
            subst h1
            subst h2
            exact procAll_keeps_subset m key false groups

/-- C4 witness: the sensitive-key scenario manifest. -/
theorem c4_redacted_subset_flattened_witness :
    RedactAttribute passwordKeyMatcher (bytes "password")
      (bytes "user=dave&password=mypw$") =
    (.ok (some ⟨[(bytes "password.password", bytes "mypw$")],
                [(bytes "password.user", bytes "dave"),
                 (bytes "password.password", bytes "mypw$")]⟩),
      bytes "password=%2A%2A%2A&user=dave") ∧
    mapGet [(bytes "password.user", bytes "dave"),
            (bytes "password.password", bytes "mypw$")]
        (bytes "password.password") ≠ none :=
  ⟨by decide,
   c4_redacted_subset_flattened passwordKeyMatcher (bytes "password")
     (bytes "user=dave&password=mypw$")
     ⟨[(bytes "password.password", bytes "mypw$")],
      [(bytes "password.user", bytes "dave"),
       (bytes "password.password", bytes "mypw$")]⟩
     (bytes "password=%2A%2A%2A&user=dave") (by decide)
     (bytes "password.password") (by decide)⟩

/-! ### Characterizing the manifest maps (for claim C2) -/

theorem fqnB_inj (key p1 p2 : Bytes) (h : fqnB key p1 = fqnB key p2) :
    p1 = p2 := by
  unfold fqnB at h
  have h2 := List.append_cancel_left h
  injection h2

/-- The parameter names of a `url.Values`. -/
def keysOf (v : UrlValues) : List Bytes := v.map Prod.fst

theorem keysOf_valuesAdd (v : UrlValues) (k val : Bytes) :
    keysOf (valuesAdd v k val) =
      if k ∈ keysOf v then keysOf v else keysOf v ++ [k] := by
  induction v with
  | nil => simp [valuesAdd, keysOf]
  | cons g rest ih =>
    obtain ⟨k', vs⟩ := g
    by_cases hk : k' = k
    · subst hk
      simp [valuesAdd, keysOf]
    · have hne : ¬ (k = k') := fun hh => hk hh.symm
      simp only [valuesAdd, if_neg hk, keysOf, List.map_cons, List.mem_cons, hne,
        false_or]
      by_cases hmem : k ∈ keysOf rest
      · simp only [keysOf] at hmem
        simp [hmem, keysOf] at ih ⊢
        simp [ih]
      · simp only [keysOf] at hmem
        simp [hmem, keysOf] at ih ⊢
        simp [ih]

theorem nodup_keysOf_valuesAdd (v : UrlValues) (k val : Bytes)
    (h : (keysOf v).Nodup) : (keysOf (valuesAdd v k val)).Nodup := by
  rw [keysOf_valuesAdd]
  by_cases hmem : k ∈ keysOf v
  · simpa [hmem] using h
  · simp [hmem, List.nodup_append, h, List.Disjoint]
    intro a ha hak
    exact hmem (hak ▸ ha)

theorem vals_ne_nil_valuesAdd (v : UrlValues) (k val : Bytes)
    (h : ∀ g ∈ v, g.2 ≠ []) : ∀ g ∈ valuesAdd v k val, g.2 ≠ [] := by
  induction v with
  | nil =>
    intro g hg
    have hg' : g = (k, [val]) := by simpa [valuesAdd] using hg
    subst hg'
    simp
  | cons q rest ih =>
    obtain ⟨k', vs⟩ := q
    intro g hg
    by_cases hk : k' = k
    · have hg2 : g = (k, vs ++ [val]) ∨ g ∈ rest := by
        simpa [valuesAdd, hk] using hg
      rcases hg2 with hg2 | hg2
      · subst hg2; simp
      · exact h g (List.mem_cons_of_mem _ hg2)
    · have hg2 : g = (k', vs) ∨ g ∈ valuesAdd rest k val := by
        simpa [valuesAdd, hk] using hg
      rcases hg2 with hg2 | hg2
      · subst hg2
        exact h (k', vs) (by simp)
      · exact ih (fun g' hg' => h g' (List.mem_cons_of_mem _ hg')) g hg2

/-- The grouped query parameters have distinct names and nonempty value
lists. -/
theorem groupParams_props (ps : List (Bytes × Bytes)) :
    (keysOf (groupParams ps)).Nodup ∧ ∀ g ∈ groupParams ps, g.2 ≠ [] := by
  unfold groupParams
  refine foldl_keepsP
    (fun (v : UrlValues) => (keysOf v).Nodup ∧ ∀ g ∈ v, g.2 ≠ [])
    _ _ _ ⟨by simp [keysOf], by simp⟩ ?_
  intro v a hP
  exact ⟨nodup_keysOf_valuesAdd _ _ _ hP.1, vals_ne_nil_valuesAdd _ _ _ hP.2⟩

theorem getLast?_cons_or (a : Bytes) (l : List Bytes) :
    (a :: l).getLast? = Option.or l.getLast? (some a) := by
  cases l with
  | nil => rfl
  | cons b t =>
    rw [List.getLast?_cons_cons]
    cases hx : (b :: t).getLast? with
    | none =>
      exfalso
      have : (b :: t) ≠ [] := by simp
      rw [← List.getLast?_isSome, hx] at this
      simp at this
    | some x => simp [Option.or]

theorem getLast?_ne_none (l : List Bytes) (h : l ≠ []) : l.getLast? ≠ none := by
  intro hn
  rw [← List.getLast?_isSome, hn] at h
  simp at h

/-- The shape of one leaf step: Flattened always records the leaf under its
fully-qualified name; Redacted either is untouched or records it too. -/
theorem procLeaf_flat_set (m : Matcher) (key : Bytes) (iu : Bool)
    (param : Bytes) (nvals : Nat) (st : FilterState) (iv : Nat × Bytes) :
    (procLeaf m key iu param nvals st iv).flat =
      mapSet st.flat (fqnB key param) iv.2 ∧
    ((procLeaf m key iu param nvals st iv).red = st.red ∨
     (procLeaf m key iu param nvals st iv).red =
       mapSet st.red (fqnB key param) iv.2) := by
  unfold procLeaf
  by_cases hkr : (m.FilterKeyRegexs param key iv.2
      (leafPath iu param nvals iv.1)).1 = true
  · simp [hkr]
  · by_cases hvr : (m.FilterStringValueRegexs iv.2 key
        (leafPath iu param nvals iv.1)).1 = true
    · simp [hkr, hvr]
    · simp [hkr, hvr]

/-- Manifest bookkeeping of the inner loop over one parameter's indexed
values. -/
theorem procLeafList_manifest (m : Matcher) (key : Bytes) (iu : Bool)
    (param : Bytes) (nvals : Nat) (l : List (Nat × Bytes)) (st : FilterState) :
    (∀ p v, mapGet (l.foldl (procLeaf m key iu param nvals) st).red p = some v →
      mapGet st.red p = some v ∨ (p = fqnB key param ∧ v ∈ l.map Prod.snd)) ∧
    mapGet (l.foldl (procLeaf m key iu param nvals) st).flat (fqnB key param) =
      Option.or (l.map Prod.snd).getLast? (mapGet st.flat (fqnB key param)) ∧
    (∀ p, p ≠ fqnB key param →
      mapGet (l.foldl (procLeaf m key iu param nvals) st).flat p =
        mapGet st.flat p) ∧
    (∀ p, p ≠ fqnB key param →
      mapGet (l.foldl (procLeaf m key iu param nvals) st).red p =
        mapGet st.red p) := by
  induction l generalizing st with
  | nil =>
    refine ⟨fun p v h => .inl h, ?_, fun p _ => rfl, fun p _ => rfl⟩
    simp [Option.or]
  | cons iv l ih =>
    simp only [List.foldl_cons, List.map_cons]
    obtain ⟨hflat1, hred1⟩ := procLeaf_flat_set m key iu param nvals st iv
    obtain ⟨ihred, ihflat, ihflatne, ihredne⟩ :=
      ih (procLeaf m key iu param nvals st iv)
    refine ⟨?_, ?_, ?_, ?_⟩
    · intro p v h
      rcases ihred p v h with h' | h'
      · rcases hred1 with hr | hr
        · rw [hr] at h'
          exact .inl h'
        · rw [hr, mapGet_mapSet] at h'
          by_cases hpf : p = fqnB key param
          · rw [if_pos hpf] at h'
            exact .inr ⟨hpf, by rw [← Option.some.inj h']; exact List.mem_cons_self _ _⟩
          · rw [if_neg hpf] at h'
            exact .inl h'
      · exact .inr ⟨h'.1, List.mem_cons_of_mem _ h'.2⟩
    · have h1 : mapGet (procLeaf m key iu param nvals st iv).flat
          (fqnB key param) = some iv.2 := by
        rw [hflat1, mapGet_mapSet, if_pos rfl]
      rw [ihflat, h1, getLast?_cons_or]
      cases hgl : (l.map Prod.snd).getLast? <;> simp [Option.or]
    · intro p hp
      rw [ihflatne p hp, hflat1, mapGet_mapSet, if_neg hp]
    · intro p hp
      rcases hred1 with hr | hr
      · rw [ihredne p hp, hr]
      · rw [ihredne p hp, hr, mapGet_mapSet, if_neg hp]

/-- Manifest bookkeeping of one parameter group. -/
theorem procGroup_manifest (m : Matcher) (key : Bytes) (iu : Bool)
    (st : FilterState) (param : Bytes) (vs : List Bytes) (hvs : vs ≠ []) :
    (∀ p v, mapGet (procGroup m key iu st (param, vs)).red p = some v →
      mapGet st.red p = some v ∨ (p = fqnB key param ∧ v ∈ vs)) ∧
    mapGet (procGroup m key iu st (param, vs)).flat (fqnB key param) =
      vs.getLast? ∧
    (∀ p, p ≠ fqnB key param →
      mapGet (procGroup m key iu st (param, vs)).flat p = mapGet st.flat p) ∧
    (∀ p, p ≠ fqnB key param →
      mapGet (procGroup m key iu st (param, vs)).red p = mapGet st.red p) := by
  unfold procGroup
  obtain ⟨hred, hflat, hflatne, hredne⟩ :=
    procLeafList_manifest m key iu param vs.length vs.enum st
  rw [List.enum_map_snd] at hred hflat
  refine ⟨hred, ?_, hflatne, hredne⟩
  rw [hflat]
  cases hgl : vs.getLast? with
  | none => exact absurd hgl (getLast?_ne_none vs hvs)
  | some x => simp [Option.or]

/-- The invariant carried across processed groups: Redacted entries come
from processed leaves (original values), and Flattened holds each
processed parameter's LAST original value. -/
def ManifestInv (key : Bytes) (gs : UrlValues) (st : FilterState) : Prop :=
  (∀ p v, mapGet st.red p = some v →
    ∃ param vs, (param, vs) ∈ gs ∧ p = fqnB key param ∧ v ∈ vs) ∧
  (∀ param vs, (param, vs) ∈ gs → mapGet st.flat (fqnB key param) = vs.getLast?)

theorem foldGroups_manifest (m : Matcher) (key : Bytes) (iu : Bool)
    (groups : UrlValues) :
    ∀ (gs0 : UrlValues) (st : FilterState),
      ManifestInv key gs0 st →
      (keysOf (gs0 ++ groups)).Nodup →
      (∀ g ∈ groups, g.2 ≠ []) →
      ManifestInv key (gs0 ++ groups) (groups.foldl (procGroup m key iu) st) := by
  induction groups with
  | nil =>
    intro gs0 st hInv hnd hne
    simpa using hInv
  | cons g groups ih =>
    intro gs0 st hInv hnd hne
    obtain ⟨param, vs⟩ := g
    have hvs : vs ≠ [] := hne (param, vs) (by simp)
    obtain ⟨gred, gflat, gflatne, gredne⟩ :=
      procGroup_manifest m key iu st param vs hvs
    have hparam_notin : param ∉ keysOf gs0 := by
      have hnd2 : (keysOf gs0 ++ param :: keysOf groups).Nodup := by
        simpa [keysOf] using hnd
      have hdisj := (List.nodup_append.mp hnd2).2.2
      intro hmem
      exact hdisj hmem (by simp)
    have hInv1 : ManifestInv key (gs0 ++ [(param, vs)])
        (procGroup m key iu st (param, vs)) := by
      constructor
      · intro p v h
        rcases gred p v h with h' | h'
        · obtain ⟨pa, vsa, hmem, hp, hv⟩ := hInv.1 p v h'
          exact ⟨pa, vsa, List.mem_append_left _ hmem, hp, hv⟩
        · exact ⟨param, vs, by simp, h'.1, h'.2⟩
      · intro pa vsa hmem
        rcases List.mem_append.mp hmem with hmemL | hmemR
        · have hpa : pa ≠ param := by
            intro hh
            subst hh
            exact hparam_notin (List.mem_map_of_mem Prod.fst hmemL)
          have hfq : fqnB key pa ≠ fqnB key param :=
            fun hh => hpa (fqnB_inj key pa param hh)
          rw [gflatne _ hfq]
          exact hInv.2 pa vsa hmemL
        · simp at hmemR
          obtain ⟨hp, hv⟩ := hmemR
          subst hp
          subst hv
          exact gflat
    have hnd' : (keysOf ((gs0 ++ [(param, vs)]) ++ groups)).Nodup := by
      simpa [keysOf, List.append_assoc] using hnd
    have hne' : ∀ g ∈ groups, g.2 ≠ [] :=
      fun g hg => hne g (List.mem_cons_of_mem _ hg)
    have hres := ih (gs0 ++ [(param, vs)]) _ hInv1 hnd' hne'
    simpa [List.append_assoc] using hres

/-- The manifest invariant for the whole loop of `RedactAttribute`. -/
theorem procAll_manifest (m : Matcher) (key : Bytes) (iu : Bool)
    (ps : List (Bytes × Bytes)) :
    ManifestInv key (groupParams ps) (procAll m key iu (groupParams ps)) := by
  unfold procAll
  have h0 : ManifestInv key [] (⟨[], [], []⟩ : FilterState) := by
    constructor
    · intro p v h
      simp [mapGet] at h
    · intro pa vsa hmem
      simp at hmem
  have hprops := groupParams_props ps
  have := foldGroups_manifest m key iu (groupParams ps) [] ⟨[], [], []⟩ h0
    (by simpa using hprops.1) hprops.2
  simpa using this

/-! ### Claim C2: what the manifest maps record

The code (filter.go line 61) writes the ORIGINAL leaf value into
`Flattened` — not the post-redaction string.  The claim's second half is
therefore false; both maps record pre-redaction originals. -/

/-- C2 (counterexample): in the sensitive-key scenario the redacted leaf's
post-redaction string is the `***` marker (as the outgoing value's parse
shows), yet Flattened records the original `mypw$`. -/
theorem c2_counterexample :
    (RedactAttribute passwordKeyMatcher (bytes "password")
        (bytes "user=dave&password=mypw$")).1 =
      .ok (some ⟨[(bytes "password.password", bytes "mypw$")],
                 [(bytes "password.user", bytes "dave"),
                  (bytes "password.password", bytes "mypw$")]⟩) ∧
    parseQueryV (RedactAttribute passwordKeyMatcher (bytes "password")
        (bytes "user=dave&password=mypw$")).2 =
      some [(bytes "password", [bytes "***"]), (bytes "user", [bytes "dave"])] ∧
    ¬ (bytes "mypw$" = bytes "***") := by decide

/-- C2 (amended): whenever the URL-encoded filter succeeds and records a
leaf at dotted path p in Redacted, that entry is the pre-redaction
(original) string of one of the leaves parsed at p, and Flattened records
at p the pre-redaction (original) string of the LAST leaf parsed at p —
not the post-redaction string. -/
theorem c2_manifest_holds_originals (m : Matcher) (key value raw : Bytes)
    (attr : ParsedAttribute) (out : Bytes) (ps : List (Bytes × Bytes))
    (h : RedactAttribute m key value = (.ok (some attr), out))
    (hraw : (if key = urlAttributeStr then
        (urlParse value).toOption.map GoURL.rawQuery else some value) = some raw)
    (hps : parsePairs raw = some ps) :
    ∀ p v, mapGet attr.Redacted p = some v →
      ∃ param vs, (param, vs) ∈ groupParams ps ∧ p = fqnB key param ∧ v ∈ vs ∧
        mapGet attr.Flattened p = vs.getLast? := by
  obtain ⟨R, F⟩ := attr
  unfold RedactAttribute at h
  by_cases hv : value = []
  · rw [if_pos hv] at h
    simp at h
  · rw [if_neg hv] at h
    by_cases hk : key = urlAttributeStr
    · rw [if_pos hk] at h
      rw [if_pos hk] at hraw
      cases hu : urlParse value with
      | error e => rw [hu] at h; simp at h
      | ok u =>
        rw [hu] at h
        rw [hu] at hraw
        simp only [] at h
        simp [Except.toOption] at hraw
        cases hq : parseQueryV u.rawQuery with
        | none => rw [hq] at h; simp at h
        | some groups =>
          have hgroups : groups = groupParams ps := by
            have hpq : parseQueryV raw = some (groupParams ps) := by
              simp [parseQueryV, hps]
            rw [← hraw] at hpq
            rw [hq] at hpq
            exact Option.some.inj hpq
          rw [hq] at h
          simp only [] at h
          subst hgroups
          split at h <;>
            · simp at h
              obtain ⟨⟨h1, h2⟩, h3⟩ := h
              subst h1
              subst h2
              intro p v hpv
              obtain ⟨param, vs, hmem, hp, hvv⟩ :=
                (procAll_manifest m key true ps).1 p v hpv
              refine ⟨param, vs, hmem, hp, hvv, ?_⟩
              rw [hp]
              exact (procAll_manifest m key true ps).2 param vs hmem
    · rw [if_neg hk] at h
      rw [if_neg hk] at hraw
      have hraw' : value = raw := Option.some.inj hraw
      cases hq : parseQueryV value with
      | none => rw [hq] at h; simp at h
      | some groups =>
        have hgroups : groups = groupParams ps := by
          have hpq : parseQueryV raw = some (groupParams ps) := by
            simp [parseQueryV, hps]
          rw [← hraw'] at hpq
          rw [hq] at hpq
          exact Option.some.inj hpq
        rw [hq] at h
        simp only [] at h
        subst hgroups
        split at h <;>
          · simp at h
            obtain ⟨⟨h1, h2⟩, h3⟩ := h
            subst h1
            subst h2
            intro p v hpv
            obtain ⟨param, vs, hmem, hp, hvv⟩ :=
              (procAll_manifest m key false ps).1 p v hpv
            refine ⟨param, vs, hmem, hp, hvv, ?_⟩
            rw [hp]
            exact (procAll_manifest m key false ps).2 param vs hmem

/-- C2 witness: the sensitive-key scenario, at path password.password. -/
theorem c2_manifest_holds_originals_witness :
    RedactAttribute passwordKeyMatcher (bytes "password")
      (bytes "user=dave&password=mypw$") =
    (.ok (some ⟨[(bytes "password.password", bytes "mypw$")],
                [(bytes "password.user", bytes "dave"),
                 (bytes "password.password", bytes "mypw$")]⟩),
      bytes "password=%2A%2A%2A&user=dave") ∧
    (∃ param vs,
      (param, vs) ∈ groupParams [(bytes "user", bytes "dave"),
                                 (bytes "password", bytes "mypw$")] ∧
      bytes "password.password" = fqnB (bytes "password") param ∧
      bytes "mypw$" ∈ vs ∧
      mapGet [(bytes "password.user", bytes "dave"),
              (bytes "password.password", bytes "mypw$")]
          (bytes "password.password") = vs.getLast?) :=
  ⟨by decide,
   c2_manifest_holds_originals passwordKeyMatcher (bytes "password")
     (bytes "user=dave&password=mypw$") (bytes "user=dave&password=mypw$")
     ⟨[(bytes "password.password", bytes "mypw$")],
      [(bytes "password.user", bytes "dave"),
       (bytes "password.password", bytes "mypw$")]⟩
     (bytes "password=%2A%2A%2A&user=dave")
     [(bytes "user", bytes "dave"), (bytes "password", bytes "mypw$")]
     (by decide) (by decide) (by decide)
     (bytes "password.password") (bytes "mypw$") (by decide)⟩

/-! ### Round trip of the query percent-encoding (towards claim C3) -/

theorem hexVal_hexUpper : ∀ n < 16, hexVal (hexUpper n) = some n := by decide

theorem queryPass_facts : ∀ c < 256, ¬(c = 32) →
    shouldEscapeByte c .queryMode = false → c ≠ 37 ∧ c ≠ 43 := by decide

theorem escByte_no_sep : ∀ c < 256, ∀ b ∈ goEscapeByte .queryMode c,
    b ≠ 38 ∧ b ≠ 59 ∧ b ≠ 61 := by decide

theorem escByte_ne_nil : ∀ c < 256, goEscapeByte .queryMode c ≠ [] := by decide

theorem goUnescape_query_plus (t : Bytes) :
    goUnescape .queryMode (43 :: t) =
      (goUnescape .queryMode t).map (fun r => 32 :: r) := by
  rw [goUnescape.eq_def]
  simp

theorem goUnescape_query_pct (a b : Nat) (t : Bytes) (ha hb : Nat)
    (h1 : hexVal a = some ha) (h2 : hexVal b = some hb) :
    goUnescape .queryMode (37 :: a :: b :: t) =
      (goUnescape .queryMode t).map (fun r => (16 * ha + hb) :: r) := by
  rw [goUnescape.eq_def]
  simp [h1, h2]

theorem goUnescape_query_pass (c : Nat) (t : Bytes) (h37 : c ≠ 37)
    (h43 : c ≠ 43) :
    goUnescape .queryMode (c :: t) =
      (goUnescape .queryMode t).map (fun r => c :: r) := by
  rw [goUnescape.eq_def]
  simp [h37, h43]

theorem unescape_escByte (c : Nat) (hc : c < 256) (t : Bytes) :
    goUnescape .queryMode (goEscapeByte .queryMode c ++ t) =
      (goUnescape .queryMode t).map (fun r => c :: r) := by
  by_cases h32 : c = 32
  · subst h32
    have hesc : goEscapeByte .queryMode 32 = [43] := by decide
    rw [hesc]
    simpa using goUnescape_query_plus t
  · by_cases hesc : shouldEscapeByte c .queryMode = true
    · have h1 : hexVal (hexUpper (c / 16 % 16)) = some (c / 16 % 16) :=
        hexVal_hexUpper _ (by omega)
      have h2 : hexVal (hexUpper (c % 16)) = some (c % 16) :=
        hexVal_hexUpper _ (by omega)
      have hcomb : 16 * (c / 16 % 16) + c % 16 = c := by omega
      have heb : goEscapeByte .queryMode c =
          [37, hexUpper (c / 16 % 16), hexUpper (c % 16)] := by
        simp [goEscapeByte, h32, hesc]
      rw [heb]
      have := goUnescape_query_pct (hexUpper (c / 16 % 16))
        (hexUpper (c % 16)) t _ _ h1 h2
      rw [hcomb] at this
      simpa using this
    · have hf : shouldEscapeByte c .queryMode = false := by
        cases hsb : shouldEscapeByte c .queryMode
        · rfl
        · exact absurd hsb hesc
      obtain ⟨hne37, hne43⟩ := queryPass_facts c hc h32 hf
      have heb : goEscapeByte .queryMode c = [c] := by
        simp [goEscapeByte, h32, hesc]
      rw [heb]
      simpa using goUnescape_query_pass c t hne37 hne43

theorem unescape_escape_append (s : Bytes) (hs : validBytes s) (t : Bytes) :
    goUnescape .queryMode (goEscape .queryMode s ++ t) =
      (goUnescape .queryMode t).map (fun r => s ++ r) := by
  induction s with
  | nil =>
    simp [goEscape]
  | cons c s ih =>
    have hc : c < 256 := hs c (by simp)
    have hs' : validBytes s := fun b hb => hs b (by simp [hb])
    have hstep := unescape_escByte c hc (goEscape .queryMode s ++ t)
    calc goUnescape .queryMode (goEscape .queryMode (c :: s) ++ t)
        = goUnescape .queryMode
            (goEscapeByte .queryMode c ++ (goEscape .queryMode s ++ t)) := by
          simp [goEscape, List.append_assoc]
      _ = (goUnescape .queryMode (goEscape .queryMode s ++ t)).map
            (fun r => c :: r) := hstep
      _ = ((goUnescape .queryMode t).map (fun r => s ++ r)).map
            (fun r => c :: r) := by rw [ih hs']
      _ = (goUnescape .queryMode t).map (fun r => (c :: s) ++ r) := by
          cases goUnescape .queryMode t <;> simp

theorem unescape_escape (s : Bytes) (hs : validBytes s) :
    queryUnescape (queryEscape s) = some s := by
  have h := unescape_escape_append s hs []
  simpa [queryEscape, queryUnescape, goUnescape] using h

/-! ### Parsing the re-encoded form (towards claim C3) -/

/-- No ampersand or semicolon separator occurs in the byte string. -/
def noSep (s : Bytes) : Prop := ∀ b ∈ s, b ≠ 38 ∧ b ≠ 59

theorem splitSegs_noSep (s : Bytes) (h : noSep s) : splitSegs s = [s] := by
  induction s with
  | nil => rfl
  | cons c rest ih =>
    have hc := h c (by simp)
    have hrest : noSep rest := fun b hb => h b (by simp [hb])
    simp [splitSegs, hc.1, hc.2, ih hrest]

theorem splitSegs_append_sep (s t : Bytes) (h : noSep s) :
    splitSegs (s ++ 38 :: t) = s :: splitSegs t := by
  induction s with
  | nil => simp [splitSegs]
  | cons c rest ih =>
    have hc := h c (by simp)
    have hrest : noSep rest := fun b hb => h b (by simp [hb])
    simp [splitSegs, hc.1, hc.2, ih hrest]

theorem splitSegs_joinAmp (segs : List Bytes) (hne : segs ≠ [])
    (h : ∀ s ∈ segs, noSep s) : splitSegs (joinAmp segs) = segs := by
  induction segs with
  | nil => exact absurd rfl hne
  | cons s rest ih =>
    cases rest with
    | nil => simpa [joinAmp] using splitSegs_noSep s (h s (by simp))
    | cons s2 rest2 =>
      have hj : joinAmp (s :: s2 :: rest2) = s ++ 38 :: joinAmp (s2 :: rest2) := rfl
      rw [hj, splitSegs_append_sep s _ (h s (by simp))]
      rw [ih (by simp) (fun x hx => h x (by simp [hx]))]

theorem splitFirstEq_append (k v : Bytes) (h : ∀ b ∈ k, b ≠ 61) :
    splitFirstEq (k ++ 61 :: v) = (k, v) := by
  induction k with
  | nil => simp [splitFirstEq]
  | cons c rest ih =>
    have hc := h c (by simp)
    simp [splitFirstEq, hc, ih (fun b hb => h b (by simp [hb]))]

theorem queryEscape_no_sep (s : Bytes) (hs : validBytes s) :
    ∀ b ∈ queryEscape s, b ≠ 38 ∧ b ≠ 59 ∧ b ≠ 61 := by
  intro b hb
  obtain ⟨c, hc, hbc⟩ := List.mem_flatMap.mp hb
  exact escByte_no_sep c (hs c hc) b hbc

theorem parsePair_encoded (k v : Bytes) (hk : validBytes k) (hv : validBytes v) :
    parsePair (queryEscape k ++ 61 :: queryEscape v) = some (k, v) := by
  have h61 : ∀ b ∈ queryEscape k, b ≠ 61 :=
    fun b hb => (queryEscape_no_sep k hk b hb).2.2
  have h1 : queryUnescape (queryEscape k) = some k := unescape_escape k hk
  have h2 : queryUnescape (queryEscape v) = some v := unescape_escape v hv
  simp [parsePair, splitFirstEq_append _ _ h61, h1, h2]

/-- The encoded segment of one decoded pair. -/
def segOf (p : Bytes × Bytes) : Bytes := queryEscape p.1 ++ 61 :: queryEscape p.2

/-- The ordered pairs underlying a `url.Values`. -/
def flatPairs (g : UrlValues) : List (Bytes × Bytes) :=
  g.flatMap (fun e => e.2.map (fun x => (e.1, x)))

theorem valuesEncode_eq_segs (v : UrlValues) :
    valuesEncode v = joinAmp ((flatPairs (sortGroups v)).map segOf) := by
  unfold valuesEncode flatPairs segOf
  congr 1
  induction sortGroups v with
  | nil => rfl
  | cons g rest ih =>
    simp only [List.flatMap_cons, List.map_append, List.map_map, ih]
    rfl

theorem mapM_parsePair_encoded (pairs : List (Bytes × Bytes))
    (hval : ∀ p ∈ pairs, validBytes p.1 ∧ validBytes p.2) :
    (pairs.map segOf).mapM parsePair = some pairs := by
  induction pairs with
  | nil => rfl
  | cons p rest ih =>
    simp only [List.map_cons, List.mapM_cons]
    rw [show parsePair (segOf p) = some (p.1, p.2) from
      parsePair_encoded p.1 p.2 (hval p (by simp)).1 (hval p (by simp)).2]
    rw [ih (fun q hq => hval q (by simp [hq]))]
    simp

theorem parsePairs_encodedPairs (pairs : List (Bytes × Bytes))
    (hval : ∀ p ∈ pairs, validBytes p.1 ∧ validBytes p.2) :
    parsePairs (joinAmp (pairs.map segOf)) = some pairs := by
  by_cases hne : pairs = []
  · subst hne
    rfl
  have hsegs_ne : pairs.map segOf ≠ [] := by
    intro hh
    exact hne (List.map_eq_nil_iff.mp hh)
  have hnosep : ∀ s ∈ pairs.map segOf, noSep s := by
    intro s hs
    obtain ⟨p, hp, hps⟩ := List.mem_map.mp hs
    subst hps
    intro b hb
    rcases List.mem_append.mp hb with hb | hb
    · have hq := queryEscape_no_sep p.1 (hval p hp).1 b hb
      exact ⟨hq.1, hq.2.1⟩
    · rcases List.mem_cons.mp hb with hb | hb
      · subst hb
        exact ⟨by decide, by decide⟩
      · have hq := queryEscape_no_sep p.2 (hval p hp).2 b hb
        exact ⟨hq.1, hq.2.1⟩
  unfold parsePairs
  rw [splitSegs_joinAmp _ hsegs_ne hnosep]
  have hfilter : (pairs.map segOf).filter (fun seg => !seg.isEmpty) =
      pairs.map segOf := by
    apply List.filter_eq_self.mpr
    intro s hs
    obtain ⟨p, hp, hps⟩ := List.mem_map.mp hs
    subst hps
    simp [segOf]
  rw [hfilter]
  exact mapM_parsePair_encoded pairs hval

/-! ### Regrouping the re-parsed pairs (towards claim C3) -/

theorem valuesAdd_fresh (v : UrlValues) (k val : Bytes) (h : k ∉ keysOf v) :
    valuesAdd v k val = v ++ [(k, [val])] := by
  induction v with
  | nil => rfl
  | cons g rest ih =>
    obtain ⟨k', vs⟩ := g
    have h' : ¬ (k = k' ∨ k ∈ keysOf rest) := by simpa [keysOf] using h
    push_neg at h'
    have hk : k' ≠ k := fun hh => h'.1 hh.symm
    simp [valuesAdd, hk, ih h'.2]

theorem valuesAdd_last (v : UrlValues) (k : Bytes) (l : List Bytes)
    (val : Bytes) (h : k ∉ keysOf v) :
    valuesAdd (v ++ [(k, l)]) k val = v ++ [(k, l ++ [val])] := by
  induction v with
  | nil => simp [valuesAdd]
  | cons g rest ih =>
    obtain ⟨k', vs⟩ := g
    have h' : ¬ (k = k' ∨ k ∈ keysOf rest) := by simpa [keysOf] using h
    push_neg at h'
    have hk : k' ≠ k := fun hh => h'.1 hh.symm
    simp [valuesAdd, hk, ih h'.2]

theorem foldAdd_accum (k : Bytes) (xs : List Bytes) (acc : UrlValues)
    (done : List Bytes) (h : k ∉ keysOf acc) :
    xs.foldl (fun a x => valuesAdd a k x) (acc ++ [(k, done)]) =
      acc ++ [(k, done ++ xs)] := by
  induction xs generalizing done with
  | nil => simp
  | cons x xs ih =>
    simp only [List.foldl_cons]
    rw [valuesAdd_last acc k done x h, ih (done ++ [x])]
    simp

theorem foldAdd_start (k : Bytes) (xs : List Bytes) (acc : UrlValues)
    (h : k ∉ keysOf acc) (hxs : xs ≠ []) :
    xs.foldl (fun a x => valuesAdd a k x) acc = acc ++ [(k, xs)] := by
  cases xs with
  | nil => exact absurd rfl hxs
  | cons x xs =>
    simp only [List.foldl_cons]
    rw [valuesAdd_fresh acc k x h, foldAdd_accum k xs acc [x] h]
    simp

theorem groupParams_flatPairs_gen (g : UrlValues) :
    ∀ acc : UrlValues, (keysOf (acc ++ g)).Nodup → (∀ e ∈ g, e.2 ≠ []) →
      (flatPairs g).foldl (fun a p => valuesAdd a p.1 p.2) acc = acc ++ g := by
  induction g with
  | nil =>
    intro acc _ _
    simp [flatPairs]
  | cons e g ih =>
    intro acc hnd hne
    obtain ⟨k, vs⟩ := e
    have hvs : vs ≠ [] := hne (k, vs) (by simp)
    have hfp : flatPairs ((k, vs) :: g) =
        vs.map (fun x => (k, x)) ++ flatPairs g := by
      simp [flatPairs]
    rw [hfp, List.foldl_append, List.foldl_map]
    have hkacc : k ∉ keysOf acc := by
      have hnd2 : (keysOf acc ++ k :: keysOf g).Nodup := by
        simpa [keysOf] using hnd
      have hdisj := (List.nodup_append.mp hnd2).2.2
      intro hmem
      exact hdisj hmem (by simp)
    rw [foldAdd_start k vs acc hkacc hvs]
    have hih := ih (acc ++ [(k, vs)])
      (by simpa [keysOf, List.append_assoc] using hnd)
      (fun e he => hne e (by simp [he]))
    rw [hih]
    simp

theorem groupParams_flatPairs (g : UrlValues) (hnd : (keysOf g).Nodup)
    (hne : ∀ e ∈ g, e.2 ≠ []) : groupParams (flatPairs g) = g := by
  have h := groupParams_flatPairs_gen g [] (by simpa using hnd) hne
  simpa [groupParams] using h

/-! ### The key sort of `Encode` (towards claim C3) -/

theorem bytesLt_irrefl (a : Bytes) : bytesLt a a = false := by
  induction a with
  | nil => rfl
  | cons x xs ih => simp [bytesLt, ih]

theorem bytesLt_asymm (a b : Bytes) (h : bytesLt a b = true) :
    bytesLt b a = false := by
  induction a generalizing b with
  | nil =>
    cases b with
    | nil => simp [bytesLt] at h
    | cons y ys => rfl
  | cons x xs ih =>
    cases b with
    | nil => simp [bytesLt] at h
    | cons y ys =>
      simp only [bytesLt] at h ⊢
      by_cases hxy : x < y
      · have hyx : ¬ y < x := by omega
        simp [hyx, hxy]
      · by_cases hyx : y < x
        · simp [hxy, hyx] at h
        · have hx : x = y := by omega
          subst hx
          simp only [hxy, if_neg, Nat.lt_irrefl] at h ⊢
          simp at h
          exact ih ys h

theorem bytesLt_total (a b : Bytes) (h : a ≠ b) :
    bytesLt a b = true ∨ bytesLt b a = true := by
  induction a generalizing b with
  | nil =>
    cases b with
    | nil => exact absurd rfl h
    | cons y ys => left; rfl
  | cons x xs ih =>
    cases b with
    | nil => right; rfl
    | cons y ys =>
      by_cases hxy : x < y
      · left; simp [bytesLt, hxy]
      · by_cases hyx : y < x
        · right; simp [bytesLt, hyx]
        · have hx : x = y := by omega
          subst hx
          have hxs : xs ≠ ys := fun hh => h (by rw [hh])
          rcases ih ys hxs with h1 | h1
          · left; simp [bytesLt, Nat.lt_irrefl, h1]
          · right; simp [bytesLt, Nat.lt_irrefl, h1]

theorem bytesLt_trans (a b c : Bytes) (h1 : bytesLt a b = true)
    (h2 : bytesLt b c = true) : bytesLt a c = true := by
  induction a generalizing b c with
  | nil =>
    cases c with
    | nil =>
      cases b with
      | nil => simp [bytesLt] at h2
      | cons y ys => simp [bytesLt] at h2
    | cons z zs => rfl
  | cons x xs ih =>
    cases b with
    | nil => simp [bytesLt] at h1
    | cons y ys =>
      cases c with
      | nil => simp [bytesLt] at h2
      | cons z zs =>
        simp only [bytesLt] at h1 h2 ⊢
        by_cases hxy : x < y
        · by_cases hyz : y < z
          · simp [show x < z by omega]
          · by_cases hzy : z < y
            · simp [hyz, hzy] at h2
            · have hy : y = z := by omega
              subst hy
              simp [hxy]
        · by_cases hyx : y < x
          · simp [hxy, hyx] at h1
          · have hx : x = y := by omega
            subst hx
            by_cases hyz : x < z
            · simp [hyz]
            · by_cases hzy : z < x
              · simp [hyz, hzy] at h2
              · have hz : x = z := by omega
                subst hz
                simp only [Nat.lt_irrefl, if_neg] at h1 h2 ⊢
                simp at h1 h2 ⊢
                exact ih ys zs h1 h2

theorem insertGroup_perm (p : Bytes × List Bytes) (l : UrlValues) :
    List.Perm (insertGroup p l) (p :: l) := by
  induction l with
  | nil => exact List.Perm.refl _
  | cons q qs ih =>
    simp only [insertGroup]
    split
    · exact (ih.cons q).trans (List.Perm.swap p q qs)
    · exact List.Perm.refl _

theorem sortGroups_perm (v : UrlValues) : List.Perm (sortGroups v) v := by
  induction v with
  | nil => exact List.Perm.refl _
  | cons g rest ih =>
    have h : sortGroups (g :: rest) = insertGroup g (sortGroups rest) := rfl
    rw [h]
    exact (insertGroup_perm g _).trans (ih.cons g)

/-- The strict key order used to state sortedness of the encoder's groups. -/
def ltKeys (a b : Bytes × List Bytes) : Prop := bytesLt a.1 b.1 = true

theorem insertGroup_pairwise (p : Bytes × List Bytes) (l : UrlValues)
    (hl : l.Pairwise ltKeys) (hne : ∀ q ∈ l, q.1 ≠ p.1) :
    (insertGroup p l).Pairwise ltKeys := by
  induction l with
  | nil => simp [insertGroup, ltKeys]
  | cons q qs ih =>
    rcases List.pairwise_cons.mp hl with ⟨hq, hqs⟩
    simp only [insertGroup]
    split
    next hlt =>
      apply List.pairwise_cons.mpr
      constructor
      · intro r hr
        rcases List.mem_cons.mp ((insertGroup_perm p qs).mem_iff.mp hr) with hr | hr
        · subst hr
          exact hlt
        · exact hq r hr
      · exact ih hqs (fun r hr => hne r (by simp [hr]))
    next hnlt =>
      have hqp : q.1 ≠ p.1 := hne q (by simp)
      have hpq : bytesLt p.1 q.1 = true := by
        rcases bytesLt_total p.1 q.1 (fun hh => hqp hh.symm) with h | h
        · exact h
        · exact absurd h (by simpa using hnlt)
      apply List.pairwise_cons.mpr
      refine ⟨?_, hl⟩
      intro r hr
      rcases List.mem_cons.mp hr with hr | hr
      · subst hr
        exact hpq
      · exact bytesLt_trans _ _ _ hpq (hq r hr)

theorem sortGroups_pairwise (v : UrlValues) (hnd : (keysOf v).Nodup) :
    (sortGroups v).Pairwise ltKeys := by
  induction v with
  | nil => simp [sortGroups]
  | cons g rest ih =>
    have hnd' : ¬ (g.1 ∈ keysOf rest) ∧ (keysOf rest).Nodup := by
      simpa [keysOf] using hnd
    have h : sortGroups (g :: rest) = insertGroup g (sortGroups rest) := rfl
    rw [h]
    apply insertGroup_pairwise g _ (ih hnd'.2)
    intro q hq
    intro hh
    apply hnd'.1
    have : q ∈ rest := (sortGroups_perm rest).mem_iff.mp hq
    rw [← hh]
    exact List.mem_map_of_mem Prod.fst this

theorem sortGroups_sorted_id (l : UrlValues) (hl : l.Pairwise ltKeys) :
    sortGroups l = l := by
  induction l with
  | nil => rfl
  | cons q qs ih =>
    rcases List.pairwise_cons.mp hl with ⟨hq, hqs⟩
    have h : sortGroups (q :: qs) = insertGroup q (sortGroups qs) := rfl
    rw [h, ih hqs]
    cases qs with
    | nil => rfl
    | cons r rs =>
      have hlt : bytesLt q.1 r.1 = true := hq r (by simp)
      have hfalse : bytesLt r.1 q.1 = false := bytesLt_asymm _ _ hlt
      simp [insertGroup, hfalse]

theorem sortGroups_idem (v : UrlValues) (hnd : (keysOf v).Nodup) :
    sortGroups (sortGroups v) = sortGroups v :=
  sortGroups_sorted_id _ (sortGroups_pairwise v hnd)

theorem valuesEncode_sortGroups (v : UrlValues) (hnd : (keysOf v).Nodup) :
    valuesEncode (sortGroups v) = valuesEncode v := by
  unfold valuesEncode
  rw [sortGroups_idem v hnd]

/-! ### The loop under Redact-only key rulesets (towards claim C3) -/

/-- Whether some key rule's pattern matches the parameter. -/
def keyFires (m : Matcher) (param : Bytes) : Bool :=
  (m.keyRegexs.find? (fun r => r.pattern.test param)).isSome

theorem filterKey_fst (m : Matcher) (param key v path : Bytes) :
    (m.FilterKeyRegexs param key v path).1 = keyFires m param := by
  rcases hf : m.keyRegexs.find? (fun r => r.pattern.test param) with _ | r <;>
    simp [Matcher.FilterKeyRegexs, keyFires, hf]

theorem filterKey_redact (m : Matcher) (param key v path : Bytes)
    (hkr : ∀ r ∈ m.keyRegexs, r.redactor = .redact)
    (hf : keyFires m param = true) :
    (m.FilterKeyRegexs param key v path).2.2 = bytes "***" := by
  unfold keyFires at hf
  rcases hfind : m.keyRegexs.find? (fun r => r.pattern.test param) with _ | r
  · rw [hfind] at hf
    simp at hf
  · have hmem := List.mem_of_find?_eq_some hfind
    have hred := hkr r hmem
    simp [Matcher.FilterKeyRegexs, hfind, hred, applyRedactor]

theorem filterVal_nil (m : Matcher) (hm : m.valueRegexs = []) (v k p : Bytes) :
    m.FilterStringValueRegexs v k p = (false, v) := by
  unfold Matcher.FilterStringValueRegexs
  rw [hm]
  rfl

theorem procLeaf_restricted (m : Matcher) (key : Bytes) (iu : Bool)
    (param : Bytes) (nvals : Nat) (st : FilterState) (iv : Nat × Bytes)
    (hvr : m.valueRegexs = [])
    (hkr : ∀ r ∈ m.keyRegexs, r.redactor = .redact) :
    procLeaf m key iu param nvals st iv =
      if keyFires m param then
        { vals := valuesAdd st.vals param (bytes "***"),
          red := mapSet st.red (fqnB key param) iv.2,
          flat := mapSet st.flat (fqnB key param) iv.2 }
      else
        { vals := valuesAdd st.vals param iv.2, red := st.red,
          flat := mapSet st.flat (fqnB key param) iv.2 } := by
  by_cases hf : keyFires m param = true
  · have h22 := filterKey_redact m param key iv.2
      (leafPath iu param nvals iv.1) hkr hf
    simp [procLeaf, filterKey_fst, hf, h22]
  · have hf' : keyFires m param = false := by
      cases h : keyFires m param
      · rfl
      · exact absurd h hf
    simp [procLeaf, filterKey_fst, hf', filterVal_nil m hvr]

theorem foldl_vals_proj {α : Type} (f : FilterState → α → FilterState)
    (g : UrlValues → α → UrlValues) (l : List α) (st : FilterState)
    (h : ∀ st a, (f st a).vals = g st.vals a) :
    (l.foldl f st).vals = l.foldl g st.vals := by
  induction l generalizing st with
  | nil => rfl
  | cons a l ih =>
    rw [List.foldl_cons, List.foldl_cons, ih, h]

theorem enum_foldl_snd {β : Type} (l : List Bytes) (h : β → Bytes → β)
    (init : β) :
    l.enum.foldl (fun a p => h a p.2) init = l.foldl h init := by
  rw [← List.enum_map_snd l, List.foldl_map, List.enum_map_snd]

/-- The outgoing value list of one group after the pass: the redaction
marker for every value of a matched parameter, the original values
otherwise. -/
def passOut (m : Matcher) (g : Bytes × List Bytes) : Bytes × List Bytes :=
  (g.1, if keyFires m g.1 then g.2.map (fun _ => bytes "***") else g.2)

theorem procGroup_vals_restricted (m : Matcher) (key : Bytes) (iu : Bool)
    (st : FilterState) (param : Bytes) (vs : List Bytes)
    (hvr : m.valueRegexs = [])
    (hkr : ∀ r ∈ m.keyRegexs, r.redactor = .redact)
    (hfresh : param ∉ keysOf st.vals) (hvs : vs ≠ []) :
    (procGroup m key iu st (param, vs)).vals =
      st.vals ++ [passOut m (param, vs)] := by
  unfold procGroup
  rw [foldl_vals_proj _
    (fun a iv => valuesAdd a param
      (if keyFires m param then bytes "***" else iv.2)) _ st ?hproj]
  case hproj =>
    intro st' iv
    rw [procLeaf_restricted m key iu param vs.length st' iv hvr hkr]
    by_cases hf : keyFires m param
    · simp [hf]
    · simp [hf]
  rw [enum_foldl_snd vs
    (fun a x => valuesAdd a param (if keyFires m param then bytes "***" else x))
    st.vals]
  by_cases hf : keyFires m param
  · simp only [hf, if_true]
    have hmap : vs.foldl (fun a _ => valuesAdd a param (bytes "***")) st.vals =
        (vs.map (fun _ => bytes "***")).foldl
          (fun a y => valuesAdd a param y) st.vals := by
      rw [List.foldl_map]
    have hne' : vs.map (fun _ => bytes "***") ≠ [] := by
      intro hh
      exact hvs (List.map_eq_nil_iff.mp hh)
    rw [show (fun (a : UrlValues) (x : Bytes) => valuesAdd a param (bytes "***"))
        = fun a _ => valuesAdd a param (bytes "***") from rfl]
    rw [hmap, foldAdd_start param _ st.vals hfresh hne']
    simp [passOut, hf]
  · have hf' : keyFires m param = false := by
      cases h : keyFires m param
      · rfl
      · exact absurd h hf
    simp only [hf', Bool.false_eq_true, if_false]
    rw [foldAdd_start param vs st.vals hfresh hvs]
    simp [passOut, hf']

theorem foldl_keepsP_mem {α β : Type} (P : β → Prop) (f : β → α → β)
    (l : List α) (b : β) (h0 : P b)
    (hstep : ∀ b a, a ∈ l → P b → P (f b a)) : P (l.foldl f b) := by
  induction l generalizing b with
  | nil => exact h0
  | cons a l ih =>
    exact ih _ (hstep _ _ (by simp) h0)
      (fun b' a' ha' hb' => hstep b' a' (by simp [ha']) hb')

theorem procGroups_vals_restricted (m : Matcher) (key : Bytes) (iu : Bool)
    (groups : UrlValues)
    (hvr : m.valueRegexs = [])
    (hkr : ∀ r ∈ m.keyRegexs, r.redactor = .redact) :
    ∀ st : FilterState, (keysOf st.vals ++ keysOf groups).Nodup →
      (∀ g ∈ groups, g.2 ≠ []) →
      (groups.foldl (procGroup m key iu) st).vals =
        st.vals ++ groups.map (passOut m) := by
  induction groups with
  | nil =>
    intro st _ _
    simp
  | cons g groups ih =>
    intro st hnd hne
    obtain ⟨param, vs⟩ := g
    rw [List.foldl_cons]
    have hfresh : param ∉ keysOf st.vals := by
      have hdisj := (List.nodup_append.mp (by simpa [keysOf] using hnd :
        (keysOf st.vals ++ param :: keysOf groups).Nodup)).2.2
      intro hmem
      exact hdisj hmem (by simp)
    have hgv := procGroup_vals_restricted m key iu st param vs hvr hkr hfresh
      (hne (param, vs) (by simp))
    have hih := ih (procGroup m key iu st (param, vs))
      (by
        rw [hgv]
        simpa [keysOf, passOut, List.append_assoc] using hnd)
      (fun g hg => hne g (by simp [hg]))
    rw [hih, hgv]
    simp

theorem procAll_vals_restricted (m : Matcher) (key : Bytes) (iu : Bool)
    (groups : UrlValues)
    (hvr : m.valueRegexs = [])
    (hkr : ∀ r ∈ m.keyRegexs, r.redactor = .redact)
    (hnd : (keysOf groups).Nodup) (hne : ∀ g ∈ groups, g.2 ≠ []) :
    (procAll m key iu groups).vals = groups.map (passOut m) := by
  unfold procAll
  have h := procGroups_vals_restricted m key iu groups hvr hkr ⟨[], [], []⟩
    (by simpa [keysOf] using hnd) hne
  simpa using h

/-! ### When the loop redacts (towards claim C3) -/

theorem procLeaf_red_preserve (m : Matcher) (key : Bytes) (iu : Bool)
    (param : Bytes) (nvals : Nat) (st : FilterState) (iv : Nat × Bytes)
    (h : st.red ≠ []) : (procLeaf m key iu param nvals st iv).red ≠ [] := by
  rcases (procLeaf_flat_set m key iu param nvals st iv).2 with hr | hr
  · rw [hr]; exact h
  · rw [hr]; exact mapSet_ne_nil _ _ _

theorem procLeaf_red_fires (m : Matcher) (key : Bytes) (iu : Bool)
    (param : Bytes) (nvals : Nat) (st : FilterState) (iv : Nat × Bytes)
    (hf : keyFires m param = true) :
    (procLeaf m key iu param nvals st iv).red ≠ [] := by
  simp only [procLeaf, filterKey_fst, hf, if_true]
  exact mapSet_ne_nil _ _ _

theorem foldl_last_prop {α : Type} (P : FilterState → Prop)
    (f : FilterState → α → FilterState) (l : List α) (st : FilterState)
    (hl : l ≠ []) (hstep : ∀ s a, P (f s a)) : P (l.foldl f st) := by
  induction l generalizing st with
  | nil => exact absurd rfl hl
  | cons a l ih =>
    cases l with
    | nil => exact hstep st a
    | cons b l2 => exact ih (f st a) (by simp)

theorem procGroup_red_preserve (m : Matcher) (key : Bytes) (iu : Bool)
    (st : FilterState) (g : Bytes × List Bytes)
    (h : st.red ≠ []) : (procGroup m key iu st g).red ≠ [] := by
  unfold procGroup
  exact foldl_keepsP (fun (s : FilterState) => s.red ≠ []) _ _ _ h
    (fun s iv hs => procLeaf_red_preserve m key iu g.1 g.2.length s iv hs)

theorem procGroup_red_fires (m : Matcher) (key : Bytes) (iu : Bool)
    (st : FilterState) (param : Bytes) (vs : List Bytes)
    (hf : keyFires m param = true) (hvs : vs ≠ []) :
    (procGroup m key iu st (param, vs)).red ≠ [] := by
  unfold procGroup
  refine foldl_last_prop (fun (s : FilterState) => s.red ≠ []) _ _ st ?_ ?_
  · simp [hvs]
  · intro s iv
    exact procLeaf_red_fires m key iu param _ s iv hf

theorem procAll_red_fires (m : Matcher) (key : Bytes) (iu : Bool)
    (groups : UrlValues) (param : Bytes) (vs : List Bytes)
    (hmem : (param, vs) ∈ groups) (hf : keyFires m param = true)
    (hvs : vs ≠ []) : (procAll m key iu groups).red ≠ [] := by
  obtain ⟨pre, post, rfl⟩ := List.append_of_mem hmem
  unfold procAll
  rw [List.foldl_append, List.foldl_cons]
  exact foldl_keepsP (fun (s : FilterState) => s.red ≠ []) _ post _
    (procGroup_red_fires m key iu _ param vs hf hvs)
    (fun s g hs => procGroup_red_preserve m key iu s g hs)

theorem procLeaf_red_nofire (m : Matcher) (key : Bytes) (iu : Bool)
    (param : Bytes) (nvals : Nat) (st : FilterState) (iv : Nat × Bytes)
    (hvr : m.valueRegexs = []) (hf : keyFires m param = false) :
    (procLeaf m key iu param nvals st iv).red = st.red := by
  simp only [procLeaf, filterKey_fst, hf, Bool.false_eq_true, if_false,
    filterVal_nil m hvr]

theorem procAll_red_nil (m : Matcher) (key : Bytes) (iu : Bool)
    (groups : UrlValues) (hvr : m.valueRegexs = [])
    (hnofire : ∀ g ∈ groups, keyFires m g.1 = false) :
    (procAll m key iu groups).red = [] := by
  unfold procAll
  refine foldl_keepsP_mem (fun (s : FilterState) => s.red = []) _ _ _ rfl ?_
  intro s g hg hs
  unfold procGroup
  refine foldl_keepsP (fun (s' : FilterState) => s'.red = []) _ _ _ hs ?_
  intro s' iv hs'
  rw [procLeaf_red_nofire m key iu g.1 g.2.length s' iv hvr (hnofire g hg), hs']

/-! ### Validity of the parsed bytes (towards claim C3) -/

theorem hexVal_lt {x h : Nat} (hx : hexVal x = some h) : h < 16 := by
  unfold hexVal at hx
  split_ifs at hx with h1 h2 h3 <;>
    injection hx with hh <;> omega

theorem goUnescape_query_valid (n : Nat) :
    ∀ s : Bytes, s.length ≤ n → validBytes s →
      ∀ t, goUnescape .queryMode s = some t → validBytes t := by
  induction n with
  | zero =>
    intro s hl hs t h
    have hnil : s = [] := List.length_eq_zero.mp (Nat.le_zero.mp hl)
    subst hnil
    have ht : t = [] := by simpa [goUnescape] using h.symm
    subst ht
    intro b hb
    simp at hb
  | succ n ih =>
    intro s hl hs t h
    cases s with
    | nil =>
      have ht : t = [] := by simpa [goUnescape] using h.symm
      subst ht
      intro b hb
      simp at hb
    | cons c rest =>
      by_cases h37 : c = 37
      · subst h37
        cases rest with
        | nil => rw [goUnescape.eq_def] at h; simp at h
        | cons a rest1 =>
          cases rest1 with
          | nil => rw [goUnescape.eq_def] at h; simp at h
          | cons b rest2 =>
            rcases ha : hexVal a with _ | va
            · rw [goUnescape.eq_def] at h
              simp [ha] at h
            · rcases hb : hexVal b with _ | vb
              · rw [goUnescape.eq_def] at h
                simp [ha, hb] at h
              · rw [goUnescape_query_pct a b rest2 va vb ha hb] at h
                rcases ht2 : goUnescape .queryMode rest2 with _ | t2
                · rw [ht2] at h; simp at h
                · rw [ht2] at h
                  simp at h
                  subst h
                  intro x hx
                  rcases List.mem_cons.mp hx with hx | hx
                  · subst hx
                    have hva := hexVal_lt ha
                    have hvb := hexVal_lt hb
                    omega
                  · have hrest2 : validBytes rest2 := by
                      intro y hy
                      exact hs y (by simp [hy])
                    have hlen : rest2.length ≤ n := by
                      simp at hl
                      omega
                    exact ih rest2 hlen hrest2 t2 ht2 x hx
      · by_cases h43 : c = 43
        · subst h43
          rw [goUnescape_query_plus rest] at h
          rcases ht2 : goUnescape .queryMode rest with _ | t2
          · rw [ht2] at h; simp at h
          · rw [ht2] at h
            simp at h
            subst h
            intro x hx
            rcases List.mem_cons.mp hx with hx | hx
            · subst hx; omega
            · have hrest : validBytes rest := fun y hy => hs y (by simp [hy])
              have hlen : rest.length ≤ n := by simp at hl; omega
              exact ih rest hlen hrest t2 ht2 x hx
        · rw [goUnescape_query_pass c rest h37 h43] at h
          rcases ht2 : goUnescape .queryMode rest with _ | t2
          · rw [ht2] at h; simp at h
          · rw [ht2] at h
            simp at h
            subst h
            intro x hx
            rcases List.mem_cons.mp hx with hx | hx
            · rw [hx]
              exact hs c (by simp)
            · have hrest : validBytes rest := fun y hy => hs y (by simp [hy])
              have hlen : rest.length ≤ n := by simp at hl; omega
              exact ih rest hlen hrest t2 ht2 x hx

theorem queryUnescape_valid (s t : Bytes) (hs : validBytes s)
    (h : queryUnescape s = some t) : validBytes t :=
  goUnescape_query_valid s.length s le_rfl hs t h

theorem splitSegs_ne_nil (s : Bytes) : splitSegs s ≠ [] := by
  cases s with
  | nil => simp [splitSegs]
  | cons c rest =>
    by_cases hsep : (c == 38 || c == 59) = true
    · simp [splitSegs, hsep]
    · rcases hsp : splitSegs rest with _ | ⟨s', ss⟩
      · simp [splitSegs, hsep, hsp]
      · simp [splitSegs, hsep, hsp]

theorem splitSegs_subset (s : Bytes) :
    ∀ seg ∈ splitSegs s, ∀ b ∈ seg, b ∈ s := by
  induction s with
  | nil =>
    intro seg hseg b hb
    have hseg' : seg = [] := by simpa [splitSegs] using hseg
    subst hseg'
    simp at hb
  | cons c rest ih =>
    intro seg hseg b hb
    by_cases hsep : (c == 38 || c == 59) = true
    · have hseg' : seg = [] ∨ seg ∈ splitSegs rest := by
        simpa [splitSegs, hsep] using hseg
      rcases hseg' with hseg' | hseg'
      · subst hseg'; simp at hb
      · exact List.mem_cons_of_mem _ (ih seg hseg' b hb)
    · rcases hsp : splitSegs rest with _ | ⟨s', ss⟩
      · exact absurd hsp (splitSegs_ne_nil rest)
      · have hseg' : seg = c :: s' ∨ seg ∈ ss := by
          simpa [splitSegs, hsep, hsp] using hseg
        rcases hseg' with hseg' | hseg'
        · subst hseg'
          rcases List.mem_cons.mp hb with hb | hb
          · simp [hb]
          · have hs' : s' ∈ splitSegs rest := by rw [hsp]; simp
            exact List.mem_cons_of_mem _ (ih s' hs' b hb)
        · have hss : seg ∈ splitSegs rest := by rw [hsp]; simp [hseg']
          exact List.mem_cons_of_mem _ (ih seg hss b hb)

theorem splitFirstEq_subset (s : Bytes) :
    (∀ b ∈ (splitFirstEq s).1, b ∈ s) ∧ (∀ b ∈ (splitFirstEq s).2, b ∈ s) := by
  induction s with
  | nil => simp [splitFirstEq]
  | cons c rest ih =>
    by_cases h61 : c = 61
    · constructor
      · intro b hb
        simp [splitFirstEq, h61] at hb
      · intro b hb
        simp only [splitFirstEq, h61, if_pos rfl] at hb
        exact List.mem_cons_of_mem _ hb
    · constructor
      · intro b hb
        simp only [splitFirstEq, if_neg h61] at hb
        rcases List.mem_cons.mp hb with hb | hb
        · simp [hb]
        · exact List.mem_cons_of_mem _ (ih.1 b hb)
      · intro b hb
        simp only [splitFirstEq, if_neg h61] at hb
        exact List.mem_cons_of_mem _ (ih.2 b hb)

theorem parsePair_valid (seg : Bytes) (k v : Bytes) (hseg : validBytes seg)
    (h : parsePair seg = some (k, v)) : validBytes k ∧ validBytes v := by
  unfold parsePair at h
  simp only [] at h
  rcases h1 : queryUnescape (splitFirstEq seg).1 with _ | k'
  · rw [h1] at h
    simp at h
  · rcases h2 : queryUnescape (splitFirstEq seg).2 with _ | v'
    · rw [h1, h2] at h
      simp at h
    · rw [h1, h2] at h
      simp at h
      obtain ⟨hk, hv⟩ := h
      subst hk
      subst hv
      constructor
      · exact queryUnescape_valid _ _
          (fun b hb => hseg b ((splitFirstEq_subset seg).1 b hb)) h1
      · exact queryUnescape_valid _ _
          (fun b hb => hseg b ((splitFirstEq_subset seg).2 b hb)) h2

theorem mapM_parsePair_valid (l : List Bytes) (ps : List (Bytes × Bytes))
    (hl : ∀ seg ∈ l, validBytes seg) (h : l.mapM parsePair = some ps) :
    ∀ p ∈ ps, validBytes p.1 ∧ validBytes p.2 := by
  induction l generalizing ps with
  | nil =>
    have hmap : List.mapM parsePair ([] : List Bytes) =
        some ([] : List (Bytes × Bytes)) := rfl
    rw [hmap] at h
    have hps : ps = [] := (Option.some.inj h).symm
    subst hps
    intro p hp
    simp at hp
  | cons seg l ih =>
    rw [List.mapM_cons] at h
    rcases hp0 : parsePair seg with _ | p0
    · rw [hp0] at h
      simp at h
    · rw [hp0] at h
      rcases hrest : l.mapM parsePair with _ | ps0
      · rw [hrest] at h
        simp at h
      · rw [hrest] at h
        simp at h
        subst h
        intro p hp
        rcases List.mem_cons.mp hp with hp | hp
        · subst hp
          obtain ⟨k, v⟩ := p
          exact parsePair_valid seg k v (hl seg (by simp)) hp0
        · exact ih ps0 (fun s hs => hl s (by simp [hs])) hrest p hp

theorem parsePairs_valid (s : Bytes) (ps : List (Bytes × Bytes))
    (hs : validBytes s) (h : parsePairs s = some ps) :
    ∀ p ∈ ps, validBytes p.1 ∧ validBytes p.2 := by
  unfold parsePairs at h
  refine mapM_parsePair_valid _ ps ?_ h
  intro seg hseg
  have hmem := List.mem_of_mem_filter hseg
  exact fun b hb => hs b (splitSegs_subset s seg hmem b hb)

theorem valuesAdd_valid (v : UrlValues) (k val : Bytes)
    (hv : ∀ g ∈ v, validBytes g.1 ∧ ∀ x ∈ g.2, validBytes x)
    (hk : validBytes k) (hval : validBytes val) :
    ∀ g ∈ valuesAdd v k val, validBytes g.1 ∧ ∀ x ∈ g.2, validBytes x := by
  induction v with
  | nil =>
    intro g hg
    have hg' : g = (k, [val]) := by simpa [valuesAdd] using hg
    subst hg'
    refine ⟨hk, ?_⟩
    intro x hx
    have : x = val := by simpa using hx
    subst this
    exact hval
  | cons q rest ih =>
    obtain ⟨k', vs⟩ := q
    intro g hg
    by_cases hkk : k' = k
    · have hg2 : g = (k, vs ++ [val]) ∨ g ∈ rest := by
        simpa [valuesAdd, hkk] using hg
      rcases hg2 with hg2 | hg2
      · subst hg2
        have hq := hv (k', vs) (by simp)
        refine ⟨hk, ?_⟩
        intro x hx
        rcases List.mem_append.mp hx with hx | hx
        · exact hq.2 x hx
        · have : x = val := by simpa using hx
          subst this
          exact hval
      · exact hv g (List.mem_cons_of_mem _ hg2)
    · have hg2 : g = (k', vs) ∨ g ∈ valuesAdd rest k val := by
        simpa [valuesAdd, hkk] using hg
      rcases hg2 with hg2 | hg2
      · subst hg2
        exact hv (k', vs) (by simp)
      · exact ih (fun g' hg' => hv g' (List.mem_cons_of_mem _ hg')) g hg2

theorem groupParams_valid (ps : List (Bytes × Bytes))
    (hps : ∀ p ∈ ps, validBytes p.1 ∧ validBytes p.2) :
    ∀ g ∈ groupParams ps, validBytes g.1 ∧ ∀ x ∈ g.2, validBytes x := by
  unfold groupParams
  refine foldl_keepsP_mem
    (fun (v : UrlValues) => ∀ g ∈ v, validBytes g.1 ∧ ∀ x ∈ g.2, validBytes x)
    _ _ _ (by simp) ?_
  intro v p hp hv
  exact valuesAdd_valid v p.1 p.2 hv (hps p hp).1 (hps p hp).2

theorem keysOf_map_passOut (m : Matcher) (l : UrlValues) :
    keysOf (l.map (passOut m)) = keysOf l := by
  induction l with
  | nil => rfl
  | cons g rest ih => simp [keysOf, passOut, ih]

theorem map_self_of_mem {α : Type} (f : α → α) (l : List α)
    (h : ∀ x ∈ l, f x = x) : l.map f = l := by
  induction l with
  | nil => rfl
  | cons a l ih =>
    rw [List.map_cons, h a (by simp), ih (fun x hx => h x (by simp [hx]))]

theorem passOut_idem (m : Matcher) (g : Bytes × List Bytes) :
    passOut m (passOut m g) = passOut m g := by
  obtain ⟨k, vs⟩ := g
  by_cases hf : keyFires m k <;> simp [passOut, hf, Function.comp]

theorem passOut_snd_ne (m : Matcher) (g : Bytes × List Bytes) (h : g.2 ≠ []) :
    (passOut m g).2 ≠ [] := by
  obtain ⟨k, vs⟩ := g
  by_cases hf : keyFires m k <;> simp_all [passOut, hf]

theorem passOut_valid (m : Matcher) (g : Bytes × List Bytes)
    (h : validBytes g.1 ∧ ∀ x ∈ g.2, validBytes x) :
    validBytes (passOut m g).1 ∧ ∀ x ∈ (passOut m g).2, validBytes x := by
  obtain ⟨k, vs⟩ := g
  by_cases hf : keyFires m k
  · refine ⟨h.1, ?_⟩
    intro x hx
    have hx' : x ∈ vs.map (fun _ => bytes "***") := by
      simpa [passOut, hf] using hx
    obtain ⟨y, hy, hxy⟩ := List.mem_map.mp hx'
    rw [← hxy]
    decide
  · simpa [passOut, hf] using h

theorem joinAmp_segOf_ne_nil (pairs : List (Bytes × Bytes))
    (h : pairs ≠ []) : joinAmp (pairs.map segOf) ≠ [] := by
  cases pairs with
  | nil => exact absurd rfl h
  | cons p rest =>
    cases rest with
    | nil =>
      simp only [List.map_cons, List.map_nil, joinAmp, segOf]
      intro hh
      have := congrArg (fun l => 61 ∈ l) hh
      simp at this
    | cons q rest2 =>
      simp only [List.map_cons, joinAmp, segOf]
      intro hh
      have := congrArg (fun l => (38 : Nat) ∈ l) hh
      simp at this

theorem mem_flatPairs (g : UrlValues) (param x : Bytes) (vs : List Bytes)
    (hmem : (param, vs) ∈ g) (hx : x ∈ vs) : (param, x) ∈ flatPairs g := by
  unfold flatPairs
  rw [List.mem_flatMap]
  exact ⟨(param, vs), hmem, by simp [hx]⟩

/-! ### Claim C3: idempotence of the URL-encoded filter -/

/-- The truncate-strategy variant of the password ruleset, showing that
idempotence fails for non-Redact strategies. -/
def truncMatcher : Matcher where
  keyRegexs := [{ pattern := exactPattern (bytes "password"), redactor := .truncate }]
  valueRegexs := []

set_option maxHeartbeats 3000000 in
/-- C3 (counterexample): the filter is not idempotent in general, on two
independent counts.  First, with the key rule matching `password` bound to
the Truncate strategy, applying `RedactAttribute` twice to `password=a`
differs from applying it once: the first pass rewrites the parameter value
to the marker (encoded `%2A%2A%2A`), and the second pass truncates the
marker itself into `*****`.  Second, even under the Redact-only password
ruleset the `http.url` attribute is not idempotent: the schemeless URL
`%2F%2Fa%3Ab%3Ac@h\xff?password=a` has its path canonicalised by
`URL.String` into `//a:b:c@h%FF?…`, which the second pass re-parses as an
authority with userinfo `a:b:c`, and `Userinfo.String` then escapes the
colon of the password part, yielding `//a:b%3Ac@h%FF?…` — exactly the
behaviour of Go 1.16 `net/url` on this input. -/
theorem c3_counterexample :
    ((RedactAttribute truncMatcher (bytes "password")
        (RedactAttribute truncMatcher (bytes "password") (bytes "password=a")).2).2 ≠
      (RedactAttribute truncMatcher (bytes "password") (bytes "password=a")).2) ∧
    ((RedactAttribute passwordKeyMatcher (bytes "http.url")
        (RedactAttribute passwordKeyMatcher (bytes "http.url")
          (bytes "%2F%2Fa%3Ab%3Ac@h" ++ 255 :: bytes "?password=a")).2).2 ≠
      (RedactAttribute passwordKeyMatcher (bytes "http.url")
        (bytes "%2F%2Fa%3Ab%3Ac@h" ++ 255 :: bytes "?password=a")).2) := by
  constructor
  · decide
  · decide

/-! ### Mode-generic escape and unescape lemmas (towards claim C3 on http.url) -/

theorem shouldEscape37 (m : EncMode) : shouldEscapeByte 37 m = true := by
  cases m <;> rfl

theorem shouldEscape_host_zone (c : Nat) :
    shouldEscapeByte c .zoneMode = shouldEscapeByte c .hostMode := rfl

theorem escByte_any_shape (m : EncMode) (c : Nat) :
    (c = 32 ∧ m = .queryMode ∧ goEscapeByte m c = [43]) ∨
    (¬(c = 32 ∧ m = .queryMode) ∧ shouldEscapeByte c m = true ∧
      goEscapeByte m c = [37, hexUpper (c / 16 % 16), hexUpper (c % 16)]) ∨
    (shouldEscapeByte c m = false ∧ goEscapeByte m c = [c]) := by
  by_cases hsp : c = 32 ∧ m = .queryMode
  · exact .inl ⟨hsp.1, hsp.2, by simp [goEscapeByte, hsp]⟩
  · by_cases hesc : shouldEscapeByte c m = true
    · exact .inr (.inl ⟨hsp, hesc, by simp [goEscapeByte, hsp, hesc]⟩)
    · exact .inr (.inr ⟨by simpa using hesc, by
        simp [goEscapeByte, hsp, Bool.not_eq_true _ ▸ hesc]⟩)

theorem goUnescape_cons_pass (m : EncMode) (c : Nat) (t : Bytes)
    (h37 : c ≠ 37) (h43 : ¬(c = 43 ∧ m = .queryMode))
    (hhz : ¬((m = .hostMode ∨ m = .zoneMode) ∧ c < 128 ∧
      shouldEscapeByte c m = true)) :
    goUnescape m (c :: t) = (goUnescape m t).map (fun r => c :: r) := by
  rw [goUnescape.eq_def]
  simp [h37, h43, hhz]

theorem goUnescape_cons_pct (m : EncMode) (a b : Nat) (t : Bytes)
    (ha hb : Nat) (h1 : hexVal a = some ha) (h2 : hexVal b = some hb)
    (hres : ¬(m = .hostMode ∧ ha < 8 ∧ ¬(a = 50 ∧ b = 53))) :
    goUnescape m (37 :: a :: b :: t) =
      (goUnescape m t).map (fun r => (16 * ha + hb) :: r) := by
  rw [goUnescape.eq_def]
  simp only [if_pos (rfl : (37 : Nat) = 37), h1, h2]
  rw [if_neg hres]
  simp

theorem goUnescape_cons_pct_or (m : EncMode) (a b : Nat) (t : Bytes)
    (ha hb : Nat) (h1 : hexVal a = some ha) (h2 : hexVal b = some hb) :
    goUnescape m (37 :: a :: b :: t) = none ∨
    goUnescape m (37 :: a :: b :: t) =
      (goUnescape m t).map (fun r => (16 * ha + hb) :: r) := by
  by_cases hres : m = .hostMode ∧ ha < 8 ∧ ¬(a = 50 ∧ b = 53)
  · refine .inl ?_
    rw [goUnescape.eq_def]
    simp only [if_pos (rfl : (37 : Nat) = 37), h1, h2]
    rw [if_pos hres]
    simp
  · exact .inr (goUnescape_cons_pct m a b t ha hb h1 h2 hres)

theorem unescape_escByte_any (m : EncMode) (c : Nat) (hc : c < 256)
    (t w : Bytes) (h : goUnescape m (goEscapeByte m c ++ t) = some w) :
    ∃ r, goUnescape m t = some r ∧ w = c :: r := by
  rcases escByte_any_shape m c with ⟨hc32, hmq, he⟩ | ⟨hns, hesc, he⟩ | ⟨hesc, he⟩
  · rw [he] at h
    subst hc32 hmq
    rw [goUnescape.eq_def] at h
    simp at h
    obtain ⟨r, hr, hw⟩ := h
    exact ⟨r, hr, hw.symm⟩
  · rw [he] at h
    have h1 : hexVal (hexUpper (c / 16 % 16)) = some (c / 16 % 16) :=
      hexVal_hexUpper _ (by omega)
    have h2 : hexVal (hexUpper (c % 16)) = some (c % 16) :=
      hexVal_hexUpper _ (by omega)
    simp only [List.cons_append, List.nil_append] at h
    rcases goUnescape_cons_pct_or m (hexUpper (c / 16 % 16)) (hexUpper (c % 16))
        t _ _ h1 h2 with hnone | hok
    · rw [hnone] at h
      exact absurd h (by simp)
    · rw [hok] at h
      have hcomb : 16 * (c / 16 % 16) + c % 16 = c := by omega
      rw [hcomb] at h
      obtain ⟨r, hr, hw⟩ : ∃ r, goUnescape m t = some r ∧ c :: r = w := by
        simpa using h
      exact ⟨r, hr, hw.symm⟩
  · rw [he] at h
    have h37 : c ≠ 37 := by
      intro hh
      rw [hh, shouldEscape37 m] at hesc
      exact Bool.true_eq_false.mp hesc
    have h43 : ¬(c = 43 ∧ m = .queryMode) := by
      rintro ⟨hc43, hmq⟩
      subst hc43 hmq
      exact absurd hesc (by decide)
    have hhz : ¬((m = .hostMode ∨ m = .zoneMode) ∧ c < 128 ∧
        shouldEscapeByte c m = true) := by
      rintro ⟨_, _, hse⟩
      rw [hesc] at hse
      exact Bool.false_eq_true.mp hse
    rw [List.singleton_append, goUnescape_cons_pass m c t h37 h43 hhz] at h
    obtain ⟨r, hr, hw⟩ : ∃ r, goUnescape m t = some r ∧ c :: r = w := by
      simpa using h
    exact ⟨r, hr, hw.symm⟩

theorem unescape_hostEscByte_zone (c : Nat) (hc : c < 256) (t w : Bytes)
    (h : goUnescape .zoneMode (goEscapeByte .hostMode c ++ t) = some w) :
    ∃ r, goUnescape .zoneMode t = some r ∧ w = c :: r := by
  rcases escByte_any_shape .hostMode c with ⟨_, hmq, _⟩ | ⟨hns, hesc, he⟩ | ⟨hesc, he⟩
  · exact absurd hmq (by intro hh; exact EncMode.noConfusion hh)
  · rw [he] at h
    simp only [List.cons_append, List.nil_append] at h
    have h1 : hexVal (hexUpper (c / 16 % 16)) = some (c / 16 % 16) :=
      hexVal_hexUpper _ (by omega)
    have h2 : hexVal (hexUpper (c % 16)) = some (c % 16) :=
      hexVal_hexUpper _ (by omega)
    rw [goUnescape_cons_pct .zoneMode _ _ t _ _ h1 h2
      (by rintro ⟨hm, _⟩; exact EncMode.noConfusion hm)] at h
    have hcomb : 16 * (c / 16 % 16) + c % 16 = c := by omega
    rw [hcomb] at h
    obtain ⟨r, hr, hw⟩ : ∃ r, goUnescape .zoneMode t = some r ∧ c :: r = w := by
      simpa using h
    exact ⟨r, hr, hw.symm⟩
  · rw [he] at h
    have h37 : c ≠ 37 := by
      intro hh
      rw [hh, shouldEscape37 .hostMode] at hesc
      exact Bool.true_eq_false.mp hesc
    have hhz : ¬((EncMode.zoneMode = .hostMode ∨ EncMode.zoneMode = .zoneMode) ∧
        c < 128 ∧ shouldEscapeByte c .zoneMode = true) := by
      rintro ⟨_, _, hse⟩
      rw [shouldEscape_host_zone, hesc] at hse
      exact Bool.false_eq_true.mp hse
    rw [List.singleton_append,
      goUnescape_cons_pass .zoneMode c t h37 (by rintro ⟨_, hm⟩; exact EncMode.noConfusion hm) hhz] at h
    obtain ⟨r, hr, hw⟩ : ∃ r, goUnescape .zoneMode t = some r ∧ c :: r = w := by
      simpa using h
    exact ⟨r, hr, hw.symm⟩

theorem unescape_goEscape_pre (m : EncMode) (s : Bytes) :
    ∀ t w, validBytes s → goUnescape m (goEscape m s ++ t) = some w →
      ∃ r, goUnescape m t = some r ∧ w = s ++ r := by
  induction s with
  | nil =>
    intro t w _ h
    exact ⟨w, by simpa [goEscape] using h, by simp⟩
  | cons c cs ih =>
    intro t w hval h
    have hc : c < 256 := hval c (by simp)
    have hcs : validBytes cs := fun b hb => hval b (by simp [hb])
    rw [show goEscape m (c :: cs) = goEscapeByte m c ++ goEscape m cs from by
        simp [goEscape], List.append_assoc] at h
    obtain ⟨r1, hr1, hw1⟩ := unescape_escByte_any m c hc _ w h
    obtain ⟨r2, hr2, hw2⟩ := ih t r1 hcs hr1
    exact ⟨r2, hr2, by rw [hw1, hw2]; simp⟩

theorem unescape_goEscape (m : EncMode) (s w : Bytes) (hval : validBytes s)
    (h : goUnescape m (goEscape m s) = some w) : w = s := by
  have h' : goUnescape m (goEscape m s ++ []) = some w := by simpa using h
  obtain ⟨r, hr, hw⟩ := unescape_goEscape_pre m s [] w hval h'
  have hrnil : r = [] := by
    have : goUnescape m [] = some [] := by rw [goUnescape.eq_def]
    rw [this] at hr
    exact (Option.some.inj hr).symm
  rw [hw, hrnil]
  simp

theorem unescape_zone_hostEsc_pre (s : Bytes) :
    ∀ t w, validBytes s →
      goUnescape .zoneMode (goEscape .hostMode s ++ t) = some w →
      ∃ r, goUnescape .zoneMode t = some r ∧ w = s ++ r := by
  induction s with
  | nil =>
    intro t w _ h
    exact ⟨w, by simpa [goEscape] using h, by simp⟩
  | cons c cs ih =>
    intro t w hval h
    have hc : c < 256 := hval c (by simp)
    have hcs : validBytes cs := fun b hb => hval b (by simp [hb])
    rw [show goEscape .hostMode (c :: cs) =
        goEscapeByte .hostMode c ++ goEscape .hostMode cs from by
        simp [goEscape], List.append_assoc] at h
    obtain ⟨r1, hr1, hw1⟩ := unescape_hostEscByte_zone c hc _ w h
    obtain ⟨r2, hr2, hw2⟩ := ih t r1 hcs hr1
    exact ⟨r2, hr2, by rw [hw1, hw2]; simp⟩

theorem unescape_zone_hostEsc (s w : Bytes) (hval : validBytes s)
    (h : goUnescape .zoneMode (goEscape .hostMode s) = some w) : w = s := by
  have h' : goUnescape .zoneMode (goEscape .hostMode s ++ []) = some w := by
    simpa using h
  obtain ⟨r, hr, hw⟩ := unescape_zone_hostEsc_pre s [] w hval h'
  have hrnil : r = [] := by
    have : goUnescape .zoneMode [] = some [] := by rw [goUnescape.eq_def]
    rw [this] at hr
    exact (Option.some.inj hr).symm
  rw [hw, hrnil]
  simp

theorem hexUpper_range : ∀ n < 16, (48 ≤ hexUpper n ∧ hexUpper n ≤ 57) ∨
    (65 ≤ hexUpper n ∧ hexUpper n ≤ 70) := by decide

theorem goEscape_mem (m : EncMode) (s : Bytes) (hval : validBytes s) :
    ∀ b ∈ goEscape m s, b = 37 ∨ (48 ≤ b ∧ b ≤ 57) ∨ (65 ≤ b ∧ b ≤ 70) ∨
      (m = .queryMode ∧ b = 43) ∨
      (b < 256 ∧ shouldEscapeByte b m = false) := by
  intro b hb
  rw [goEscape, List.mem_flatMap] at hb
  obtain ⟨c, hc, hbc⟩ := hb
  have hcv : c < 256 := hval c hc
  rcases escByte_any_shape m c with ⟨hc32, hmq, he⟩ | ⟨_, _, he⟩ | ⟨hesc, he⟩
  · rw [he] at hbc
    simp at hbc
    exact .inr (.inr (.inr (.inl ⟨hmq, hbc⟩)))
  · rw [he] at hbc
    simp at hbc
    rcases hbc with hb37 | hbh | hbl
    · exact .inl hb37
    · subst hbh
      rcases hexUpper_range (c / 16 % 16) (by omega) with hr | hr
      · exact .inr (.inl hr)
      · exact .inr (.inr (.inl hr))
    · subst hbl
      rcases hexUpper_range (c % 16) (by omega) with hr | hr
      · exact .inr (.inl hr)
      · exact .inr (.inr (.inl hr))
  · rw [he] at hbc
    simp at hbc
    subst hbc
    exact .inr (.inr (.inr (.inr ⟨hcv, hesc⟩)))

theorem goEscape_valid (m : EncMode) (s : Bytes) (hval : validBytes s) :
    validBytes (goEscape m s) := by
  intro b hb
  rcases goEscape_mem m s hval b hb with h | h | h | h | h <;> omega

theorem shouldEscape_alnum (m : EncMode) (b : Nat)
    (h : (48 ≤ b ∧ b ≤ 57) ∨ (65 ≤ b ∧ b ≤ 90) ∨ (97 ≤ b ∧ b ≤ 122)) :
    shouldEscapeByte b m = false := by
  unfold shouldEscapeByte
  rw [if_pos (by simp only [Bool.or_eq_true, Bool.and_eq_true, decide_eq_true_eq]; omega)]

theorem validEncodedB_goEscape (m : EncMode) (s : Bytes) (hval : validBytes s) :
    validEncodedB (goEscape m s) m = true := by
  rw [validEncodedB, List.all_eq_true]
  intro b hb
  rcases goEscape_mem m s hval b hb with h | h | h | ⟨hm, h⟩ | ⟨_, h⟩
  · subst h
    simp
  · have hf := shouldEscape_alnum m b (.inl h)
    simp [hf]
  · have hf := shouldEscape_alnum m b (.inr (.inl ⟨h.1, by omega⟩))
    simp [hf]
  · subst h
    simp
  · simp [h]

theorem goEscape_ne_nil (m : EncMode) (c : Nat) (s : Bytes) :
    goEscape m (c :: s) ≠ [] := by
  rcases escByte_any_shape m c with ⟨_, _, he⟩ | ⟨_, _, he⟩ | ⟨_, he⟩ <;>
    simp [goEscape, he]

theorem goUnescape_nil (m : EncMode) : goUnescape m [] = some [] := by
  rw [goUnescape.eq_def]

theorem goUnescape_ne_nil (m : EncMode) :
    ∀ n s t, s.length ≤ n → goUnescape m s = some t → (t = [] ↔ s = []) := by
  intro n
  induction n with
  | zero =>
    intro s t hlen h
    have hs : s = [] := List.length_eq_zero.mp (by omega)
    subst hs
    rw [goUnescape_nil] at h
    simp [← Option.some.inj h]
  | succ n ih =>
    intro s t hlen h
    match s with
    | [] =>
      rw [goUnescape_nil] at h
      simp [← Option.some.inj h]
    | c :: rest =>
      rw [goUnescape.eq_def] at h
      simp only [] at h
      by_cases hc : c = 37
      · rw [if_pos hc] at h
        match rest with
        | [] => simp at h
        | [a] => simp at h
        | a :: b :: rest2 =>
          simp only [] at h
          match h1 : hexVal a, h2 : hexVal b with
          | some ha, some hb =>
            rw [h1, h2] at h
            simp only [] at h
            split at h
            · simp at h
            · obtain ⟨r, _, hr⟩ : ∃ r, goUnescape m rest2 = some r ∧
                  (16 * ha + hb) :: r = t := by simpa using h
              simp [← hr]
          | some ha, none => rw [h1, h2] at h; simp at h
          | none, _ => rw [h1] at h; simp at h
      · rw [if_neg hc] at h
        by_cases h43 : c = 43 ∧ m = .queryMode
        · rw [if_pos h43] at h
          obtain ⟨r, _, hr⟩ : ∃ r, goUnescape m rest = some r ∧ 32 :: r = t := by
            simpa using h
          simp [← hr]
        · rw [if_neg h43] at h
          split at h
          · simp at h
          · obtain ⟨r, _, hr⟩ : ∃ r, goUnescape m rest = some r ∧ c :: r = t := by
              simpa using h
            simp [← hr]

theorem goUnescape_valid (m : EncMode) :
    ∀ n s t, s.length ≤ n → validBytes s → goUnescape m s = some t →
      validBytes t := by
  intro n
  induction n with
  | zero =>
    intro s t hlen _ h
    have hs : s = [] := List.length_eq_zero.mp (by omega)
    subst hs
    rw [goUnescape_nil] at h
    rw [← Option.some.inj h]
    intro b hb
    simp at hb
  | succ n ih =>
    intro s t hlen hval h
    match s with
    | [] =>
      rw [goUnescape_nil] at h
      rw [← Option.some.inj h]
      intro b hb
      simp at hb
    | c :: rest =>
      have hrest : validBytes rest := fun b hb => hval b (by simp [hb])
      rw [goUnescape.eq_def] at h
      simp only [] at h
      by_cases hc : c = 37
      · rw [if_pos hc] at h
        match rest with
        | [] => simp at h
        | [a] => simp at h
        | a :: b :: rest2 =>
          simp only [] at h
          match h1 : hexVal a, h2 : hexVal b with
          | some ha, some hb =>
            rw [h1, h2] at h
            simp only [] at h
            split at h
            · simp at h
            · obtain ⟨r, hrr, hr⟩ : ∃ r, goUnescape m rest2 = some r ∧
                  (16 * ha + hb) :: r = t := by simpa using h
              have hrv : validBytes r :=
                ih rest2 r (by simp at hlen; omega)
                  (fun b hb => hrest b (by simp [hb])) hrr
              have hha := hexVal_lt h1
              have hhb := hexVal_lt h2
              intro x hx
              rw [← hr] at hx
              rcases List.mem_cons.mp hx with hx | hx
              · omega
              · exact hrv x hx
          | some ha, none => rw [h1, h2] at h; simp at h
          | none, _ => rw [h1] at h; simp at h
      · rw [if_neg hc] at h
        by_cases h43 : c = 43 ∧ m = .queryMode
        · rw [if_pos h43] at h
          obtain ⟨r, hrr, hr⟩ : ∃ r, goUnescape m rest = some r ∧ 32 :: r = t := by
            simpa using h
          have hrv : validBytes r := ih rest r (by simp at hlen; omega) hrest hrr
          intro x hx
          rw [← hr] at hx
          rcases List.mem_cons.mp hx with hx | hx
          · omega
          · exact hrv x hx
        · rw [if_neg h43] at h
          split at h
          · simp at h
          · obtain ⟨r, hrr, hr⟩ : ∃ r, goUnescape m rest = some r ∧ c :: r = t := by
              simpa using h
            have hrv : validBytes r := ih rest r (by simp at hlen; omega) hrest hrr
            intro x hx
            rw [← hr] at hx
            rcases List.mem_cons.mp hx with hx | hx
            · exact hx ▸ hval c (by simp)
            · exact hrv x hx

/-! ### Split lemmas for the URL serialisation round trip -/

theorem splitFirst_nosep (sep : Nat) (cutc : Bool) (s : Bytes)
    (h : ∀ b ∈ s, b ≠ sep) : splitFirst sep cutc s = (s, []) := by
  induction s with
  | nil => rfl
  | cons c rest ih =>
    have hc : c ≠ sep := h c (by simp)
    rw [splitFirst]
    simp only [beq_iff_eq, if_neg hc]
    rw [ih (fun b hb => h b (by simp [hb]))]

theorem splitFirst_app (sep : Nat) (cutc : Bool) (x y : Bytes)
    (h : ∀ b ∈ x, b ≠ sep) :
    splitFirst sep cutc (x ++ sep :: y) = (x, if cutc then y else sep :: y) := by
  induction x with
  | nil =>
    rw [List.nil_append, splitFirst]
    simp
  | cons c rest ih =>
    have hc : c ≠ sep := h c (by simp)
    rw [List.cons_append, splitFirst]
    simp only [beq_iff_eq, if_neg hc]
    rw [ih (fun b hb => h b (by simp [hb]))]

theorem splitFirst_fst_nosep (sep : Nat) (cutc : Bool) (s : Bytes) :
    ∀ b ∈ (splitFirst sep cutc s).1, b ≠ sep := by
  induction s with
  | nil => simp [splitFirst]
  | cons c rest ih =>
    by_cases hc : c = sep
    · rw [splitFirst]
      simp [hc]
    · rw [splitFirst]
      simp only [beq_iff_eq, if_neg hc]
      intro b hb
      rcases List.mem_cons.mp hb with hb | hb
      · exact hb ▸ hc
      · exact ih b hb

theorem splitFirst_parts_subset (sep : Nat) (cutc : Bool) (s : Bytes) :
    (∀ b ∈ (splitFirst sep cutc s).1, b ∈ s) ∧
    (∀ b ∈ (splitFirst sep cutc s).2, b ∈ s) := by
  induction s with
  | nil => simp [splitFirst]
  | cons c rest ih =>
    by_cases hc : c = sep
    · rw [splitFirst]
      simp only [beq_iff_eq, if_pos hc]
      constructor
      · intro b hb
        simp at hb
      · intro b hb
        cases cutc with
        | true => simp at hb ⊢; exact .inr hb
        | false => simpa using hb
    · rw [splitFirst]
      simp only [beq_iff_eq, if_neg hc]
      constructor
      · intro b hb
        rcases List.mem_cons.mp hb with hb | hb
        · simp [hb]
        · simp [ih.1 b hb]
      · intro b hb
        simp [ih.2 b hb]

theorem splitFirst_false_snd_shape (sep : Nat) (s : Bytes) :
    (splitFirst sep false s).2 = [] ∨
    ∃ y, (splitFirst sep false s).2 = sep :: y := by
  induction s with
  | nil => simp [splitFirst]
  | cons c rest ih =>
    by_cases hc : c = sep
    · rw [splitFirst]
      simp only [beq_iff_eq, if_pos hc]
      exact .inr ⟨rest, by simp [hc]⟩
    · rw [splitFirst]
      simp only [beq_iff_eq, if_neg hc]
      exact ih

theorem splitLastByte_nosep (c : Nat) (s : Bytes) (h : ∀ b ∈ s, b ≠ c) :
    splitLastByte c s = none := by
  induction s with
  | nil => rfl
  | cons d rest ih =>
    rw [splitLastByte, ih (fun b hb => h b (by simp [hb]))]
    simp [h d (by simp)]

theorem splitLastByte_app (c : Nat) (x y : Bytes) (h : ∀ b ∈ y, b ≠ c) :
    splitLastByte c (x ++ c :: y) = some (x, y) := by
  induction x with
  | nil =>
    rw [List.nil_append, splitLastByte, splitLastByte_nosep c y h]
    simp
  | cons d rest ih =>
    rw [List.cons_append, splitLastByte, ih]

theorem splitLastByte_eq (c : Nat) (s : Bytes) (p : Bytes × Bytes)
    (h : splitLastByte c s = some p) :
    s = p.1 ++ c :: p.2 ∧ ∀ b ∈ p.2, b ≠ c := by
  induction s generalizing p with
  | nil => simp [splitLastByte] at h
  | cons d rest ih =>
    rw [splitLastByte] at h
    match hr : splitLastByte c rest with
    | some q =>
      rw [hr] at h
      have hp := Option.some.inj h
      subst hp
      obtain ⟨hq1, hq2⟩ := ih q hr
      exact ⟨by simp [hq1], hq2⟩
    | none =>
      rw [hr] at h
      by_cases hd : d = c
      · simp only [beq_iff_eq, if_pos hd] at h
        have hp := Option.some.inj h
        subst hp
        constructor
        · simp [hd]
        · intro b hb hbc
          have : splitLastByte c rest ≠ none := by
            clear ih hr h
            induction rest with
            | nil => simp at hb
            | cons e tail ih2 =>
              rw [splitLastByte]
              rcases List.mem_cons.mp hb with hb | hb
              · match htt : splitLastByte c tail with
                | some q => simp
                | none => simp [hb ▸ hbc]
              · have := ih2 hb
                match htt : splitLastByte c tail with
                | some q => simp
                | none => exact absurd htt this
          exact this hr
      · simp only [beq_iff_eq, if_neg hd] at h
        simp at h

theorem take_len_add {α : Type} (u x : List α) (k : Nat) :
    (u ++ x).take (u.length + k) = u ++ x.take k := by
  induction u with
  | nil => simp
  | cons c rest ih => simp [Nat.succ_add, ih]

theorem drop_len_add {α : Type} (u x : List α) (k : Nat) :
    (u ++ x).drop (u.length + k) = x.drop k := by
  induction u with
  | nil => simp
  | cons c rest ih => simp [Nat.succ_add, ih]

theorem last_sep_unique (c : Nat) :
    ∀ x1 x2 y1 y2 : Bytes, x1 ++ c :: y1 = x2 ++ c :: y2 →
      (∀ b ∈ y1, b ≠ c) → (∀ b ∈ y2, b ≠ c) → x1 = x2 ∧ y1 = y2 := by
  intro x1
  induction x1 with
  | nil =>
    intro x2 y1 y2 heq h1 h2
    match x2 with
    | [] => simpa using heq
    | d :: x2' =>
      rw [List.nil_append, List.cons_append] at heq
      have hd : c = d := (List.cons.inj heq).1
      have hy : y1 = x2' ++ c :: y2 := (List.cons.inj heq).2
      exact absurd rfl (h1 c (by rw [hy]; simp))
  | cons d x1' ih =>
    intro x2 y1 y2 heq h1 h2
    match x2 with
    | [] =>
      rw [List.nil_append, List.cons_append] at heq
      have hd : d = c := (List.cons.inj heq).1
      have hy : x1' ++ c :: y1 = y2 := (List.cons.inj heq).2
      exact absurd rfl (h2 c (by rw [← hy]; simp))
    | e :: x2' =>
      rw [List.cons_append, List.cons_append] at heq
      have hd : d = e := (List.cons.inj heq).1
      obtain ⟨hx, hy⟩ := ih x2' y1 y2 (List.cons.inj heq).2 h1 h2
      exact ⟨by rw [hd, hx], hy⟩

theorem splitLastByte_none_iff (c : Nat) (s : Bytes)
    (h : splitLastByte c s = none) : ∀ b ∈ s, b ≠ c := by
  induction s with
  | nil => simp
  | cons d rest ih =>
    rw [splitLastByte] at h
    match hr : splitLastByte c rest with
    | some q => rw [hr] at h; simp at h
    | none =>
      rw [hr] at h
      intro b hb
      rcases List.mem_cons.mp hb with hb | hb
      · subst hb
        intro hbc
        rw [if_pos (by simp [hbc])] at h
        simp at h
      · exact ih hr b hb

theorem escByte_host_37 : goEscapeByte .hostMode 37 = [37, 50, 53] := by decide

theorem escByte_host_93 : goEscapeByte .hostMode 93 = [93] := by decide

theorem escByte_host_no93 : ∀ c < 256, c ≠ 93 →
    ∀ b ∈ goEscapeByte .hostMode c, b ≠ 93 := by decide

theorem goEscape_no93 (h : Bytes) (hval : validBytes h)
    (hno : ∀ b ∈ h, b ≠ 93) : ∀ b ∈ goEscape .hostMode h, b ≠ 93 := by
  intro b hb
  rw [goEscape, List.mem_flatMap] at hb
  obtain ⟨c, hc, hbc⟩ := hb
  exact escByte_host_no93 c (hval c hc) (hno c hc) b hbc

theorem goEscape_cons (m : EncMode) (c : Nat) (s : Bytes) :
    goEscape m (c :: s) = goEscapeByte m c ++ goEscape m s := by
  simp [goEscape]

theorem goEscape_app (m : EncMode) (x y : Bytes) :
    goEscape m (x ++ y) = goEscape m x ++ goEscape m y := by
  simp [goEscape]

theorem splitLast93_E (h : Bytes) (hval : validBytes h) (p : Bytes × Bytes)
    (hs : splitLastByte 93 (goEscape .hostMode h) = some p) :
    ∃ a b, h = a ++ 93 :: b ∧ p.1 = goEscape .hostMode a ∧
      p.2 = goEscape .hostMode b := by
  obtain ⟨hdec, hfree⟩ := splitLastByte_eq 93 _ p hs
  have h93 : ¬(∀ b ∈ h, b ≠ 93) := by
    intro hno
    have : ∀ b ∈ goEscape .hostMode h, b ≠ 93 := goEscape_no93 h hval hno
    exact this 93 (by rw [hdec]; simp) rfl
  match hsp : splitLastByte 93 h with
  | none =>
    exact absurd (splitLastByte_none_iff 93 h hsp) h93
  | some q =>
    obtain ⟨hdec2, hfree2⟩ := splitLastByte_eq 93 h q hsp
    have hq1v : validBytes q.1 := fun b hb => hval b (by rw [hdec2]; simp [hb])
    have hq2v : validBytes q.2 := fun b hb => hval b (by rw [hdec2]; simp [hb])
    have hE : goEscape .hostMode h =
        goEscape .hostMode q.1 ++ 93 :: goEscape .hostMode q.2 := by
      rw [hdec2, goEscape_app, goEscape_cons, escByte_host_93]
      simp
    rw [hE] at hdec
    obtain ⟨h1, h2⟩ := last_sep_unique 93 p.1 (goEscape .hostMode q.1)
      p.2 (goEscape .hostMode q.2) hdec.symm hfree
      (goEscape_no93 q.2 hq2v hfree2)
    exact ⟨q.1, q.2, hdec2, h1, h2⟩

theorem pctBytes : bytes "%25" = [37, 50, 53] := by decide

theorem startsWith_pct_ne37 (c : Nat) (r : Bytes) (hc : c ≠ 37) :
    startsWithB (bytes "%25") (c :: r) = false := by
  rw [pctBytes, startsWithB]
  simp only [List.length_cons, List.length_nil, List.take_succ_cons,
    decide_eq_false_iff_not]
  intro hh
  exact hc (List.cons.inj hh).1

theorem subIndex_cons_skip (c : Nat) (r : Bytes) (hc : c ≠ 37) :
    subIndex (bytes "%25") (c :: r) =
      (subIndex (bytes "%25") r).map (· + 1) := by
  rw [subIndex, startsWith_pct_ne37 c r hc]
  simp

theorem subIndex_triple_skip (A B : Nat) (r : Bytes) (hAB : ¬(A = 50 ∧ B = 53))
    (hA : A ≠ 37) (hB : B ≠ 37) :
    subIndex (bytes "%25") (37 :: A :: B :: r) =
      (subIndex (bytes "%25") r).map (· + 3) := by
  have h0 : startsWithB (bytes "%25") (37 :: A :: B :: r) = false := by
    rw [pctBytes, startsWithB]
    simp only [List.length_cons, List.length_nil, List.take_succ_cons,
      decide_eq_false_iff_not]
    intro hh
    have h1 := (List.cons.inj hh).2
    have h2 := (List.cons.inj h1).1
    have h3 := (List.cons.inj (List.cons.inj h1).2).1
    exact hAB ⟨h2, h3⟩
  rw [subIndex, h0]
  simp only [Bool.false_eq_true, if_false]
  rw [subIndex_cons_skip A _ hA, subIndex_cons_skip B _ hB]
  cases subIndex (bytes "%25") r with
  | none => simp
  | some z => simp

theorem hexUpper_ne37 : ∀ n < 16, hexUpper n ≠ 37 := by decide

theorem hexUpper_3750 : ∀ c < 256, c ≠ 37 →
    ¬(hexUpper (c / 16 % 16) = 50 ∧ hexUpper (c % 16) = 53) := by decide

theorem subIndex_pct_E (a : Bytes) :
    ∀ z, validBytes a → subIndex (bytes "%25") (goEscape .hostMode a) = some z →
    ∃ a1 a2, a = a1 ++ 37 :: a2 ∧
      (goEscape .hostMode a).take z = goEscape .hostMode a1 ∧
      (goEscape .hostMode a).drop z = goEscape .hostMode (37 :: a2) := by
  induction a with
  | nil =>
    intro z _ hz
    rw [show goEscape .hostMode [] = [] from rfl, subIndex, pctBytes] at hz
    simp at hz
  | cons c cs ih =>
    intro z hval hz
    have hc : c < 256 := hval c (by simp)
    have hcs : validBytes cs := fun b hb => hval b (by simp [hb])
    by_cases hc37 : c = 37
    · subst hc37
      refine ⟨[], cs, rfl, ?_, ?_⟩
      · have : z = 0 := by
          rw [goEscape_cons, escByte_host_37] at hz
          simp only [List.cons_append, List.nil_append] at hz
          rw [subIndex] at hz
          rw [show startsWithB (bytes "%25")
              (37 :: 50 :: 53 :: goEscape .hostMode cs) = true from by
            rw [pctBytes, startsWithB]; simp] at hz
          simpa using hz.symm
        rw [this]
        rfl
      · have : z = 0 := by
          rw [goEscape_cons, escByte_host_37] at hz
          simp only [List.cons_append, List.nil_append] at hz
          rw [subIndex] at hz
          rw [show startsWithB (bytes "%25")
              (37 :: 50 :: 53 :: goEscape .hostMode cs) = true from by
            rw [pctBytes, startsWithB]; simp] at hz
          simpa using hz.symm
        rw [this]
        simp
    · rcases escByte_any_shape .hostMode c with ⟨_, hmq, _⟩ | ⟨_, hesc, he⟩ | ⟨hesc, he⟩
      · exact absurd hmq (by intro hh; exact EncMode.noConfusion hh)
      · rw [goEscape_cons, he] at hz
        simp only [List.cons_append, List.nil_append] at hz
        rw [subIndex_triple_skip _ _ _ (hexUpper_3750 c hc hc37)
          (hexUpper_ne37 _ (by omega)) (hexUpper_ne37 _ (by omega))] at hz
        obtain ⟨z', hz', hzz⟩ : ∃ z', subIndex (bytes "%25")
            (goEscape .hostMode cs) = some z' ∧ z' + 3 = z := by
          simpa using hz
        obtain ⟨a1, a2, hdec, htake, hdrop⟩ := ih z' hcs hz'
        refine ⟨c :: a1, a2, by simp [hdec], ?_, ?_⟩
        · rw [goEscape_cons, he, ← hzz]
          simp only [List.cons_append, List.nil_append]
          rw [show ∀ X : Bytes, (37 :: hexUpper (c / 16 % 16) ::
              hexUpper (c % 16) :: X).take (z' + 3) =
              37 :: hexUpper (c / 16 % 16) :: hexUpper (c % 16) :: X.take z'
            from fun X => by simp [List.take_succ_cons, Nat.add_comm]]
          rw [htake, goEscape_cons, he]
          simp
        · rw [goEscape_cons, he, ← hzz]
          simp only [List.cons_append, List.nil_append]
          rw [show ∀ X : Bytes, (37 :: hexUpper (c / 16 % 16) ::
              hexUpper (c % 16) :: X).drop (z' + 3) = X.drop z'
            from fun X => by simp [Nat.add_comm]]
          rw [hdrop]
      · rw [goEscape_cons, he] at hz
        simp only [List.singleton_append] at hz
        rw [subIndex_cons_skip c _ hc37] at hz
        obtain ⟨z', hz', hzz⟩ : ∃ z', subIndex (bytes "%25")
            (goEscape .hostMode cs) = some z' ∧ z' + 1 = z := by
          simpa using hz
        obtain ⟨a1, a2, hdec, htake, hdrop⟩ := ih z' hcs hz'
        refine ⟨c :: a1, a2, by simp [hdec], ?_, ?_⟩
        · rw [goEscape_cons, he, ← hzz]
          simp only [List.singleton_append]
          rw [show ∀ X : Bytes, (c :: X).take (z' + 1) = c :: X.take z'
            from fun X => by simp]
          rw [htake, goEscape_cons, he]
          simp
        · rw [goEscape_cons, he, ← hzz]
          simp only [List.singleton_append]
          rw [show ∀ X : Bytes, (c :: X).drop (z' + 1) = X.drop z'
            from fun X => by simp]
          rw [hdrop]

theorem escByte_host_91 : goEscapeByte .hostMode 91 = [91] := by decide

theorem goEscape_head_91 (h : Bytes) (hval : validBytes h) (tail : Bytes)
    (heq : goEscape .hostMode h = 91 :: tail) :
    ∃ t, h = 91 :: t ∧ tail = goEscape .hostMode t := by
  match h with
  | [] => simp [goEscape] at heq
  | c :: cs =>
    rw [goEscape_cons] at heq
    rcases escByte_any_shape .hostMode c with ⟨_, hmq, _⟩ | ⟨_, _, he⟩ | ⟨_, he⟩
    · exact absurd hmq (by intro hh; exact EncMode.noConfusion hh)
    · rw [he] at heq
      simp only [List.cons_append] at heq
      exact absurd (List.cons.inj heq).1 (by decide)
    · rw [he] at heq
      simp only [List.singleton_append] at heq
      have hc91 : c = 91 := (List.cons.inj heq).1
      exact ⟨cs, by rw [hc91], (List.cons.inj heq).2.symm⟩

theorem parseHost_escape (h : Bytes) (hval : validBytes h) (w : Bytes)
    (hp : parseHost (goEscape .hostMode h) = some w) : w = h := by
  rw [parseHost.eq_def] at hp
  split at hp
  next tail heq =>
    obtain ⟨t, hht, htail⟩ := goEscape_head_91 h hval tail heq
    have hfull : 91 :: tail = goEscape .hostMode h := by
      rw [htail, hht, goEscape_cons, escByte_host_91]
      simp
    rw [hfull] at hp
    match hsp : splitLastByte 93 (goEscape .hostMode h) with
    | none =>
      rw [hsp] at hp
      simp at hp
    | some p =>
      rw [hsp] at hp
      simp only [] at hp
      split at hp
      · simp at hp
      · obtain ⟨a, b, hdec, hp1, hp2⟩ := splitLast93_E h hval p hsp
        have hav : validBytes a := fun x hx => hval x (by rw [hdec]; simp [hx])
        have hbv : validBytes b := fun x hx => hval x (by rw [hdec]; simp [hx])
        match hsi : subIndex (bytes "%25") p.1 with
        | some z =>
          rw [hsi] at hp
          simp only [] at hp
          rw [hp1] at hsi
          obtain ⟨a1, a2, hadec, htake, hdrop⟩ := subIndex_pct_E a z hav hsi
          have ha1v : validBytes a1 := fun x hx => hav x (by rw [hadec]; simp [hx])
          have ha2v : validBytes (37 :: a2) := fun x hx => by
            rcases List.mem_cons.mp hx with hx | hx
            · omega
            · exact hav x (by rw [hadec]; simp [hx])
          match hu1 : goUnescape .hostMode (p.1.take z),
              hu2 : goUnescape .zoneMode (p.1.drop z),
              hu3 : goUnescape .hostMode (93 :: p.2) with
          | some w1, some w2, some w3 =>
            rw [hu1, hu2, hu3] at hp
            simp only [Option.some.inj] at hp
            rw [hp1] at hu1 hu2
            rw [htake] at hu1
            rw [hdrop] at hu2
            have hw1 : w1 = a1 := unescape_goEscape .hostMode a1 w1 ha1v hu1
            have hw2 : w2 = 37 :: a2 := unescape_zone_hostEsc (37 :: a2) w2 ha2v hu2
            have hw3 : w3 = 93 :: b := by
              rw [hp2] at hu3
              rw [goUnescape_cons_pass .hostMode 93 _ (by decide)
                (by rintro ⟨hh, _⟩; exact absurd hh (by decide))
                (by rintro ⟨_, _, hh⟩; exact absurd hh (by decide))] at hu3
              obtain ⟨r, hr, hrr⟩ : ∃ r, goUnescape .hostMode
                  (goEscape .hostMode b) = some r ∧ 93 :: r = w3 := by
                simpa using hu3
              rw [← hrr, unescape_goEscape .hostMode b r hbv hr]
            have hw := Option.some.inj hp
            rw [← hw, hw1, hw2, hw3, hdec, hadec]
            try simp
          | some _, some _, none =>
            rw [hu1, hu2, hu3] at hp
            simp at hp
          | some _, none, _ =>
            rw [hu1, hu2] at hp
            simp at hp
          | none, _, _ =>
            rw [hu1] at hp
            simp at hp
        | none =>
          rw [hsi] at hp
          exact (unescape_goEscape .hostMode h w hval hp).symm ▸ rfl
  next hne =>
    match hsp : splitLastByte 58 (goEscape .hostMode h) with
    | some p =>
      rw [hsp] at hp
      simp only [] at hp
      split at hp
      · simp at hp
      · exact unescape_goEscape .hostMode h w hval hp
    | none =>
      rw [hsp] at hp
      exact unescape_goEscape .hostMode h w hval hp

/-! ### Scheme-walk lemmas -/

/-- Bytes on which the `getScheme` walk continues. -/
def schemeContB (b : Nat) : Prop :=
  (65 ≤ b ∧ b ≤ 90) ∨ (97 ≤ b ∧ b ≤ 122) ∨ (48 ≤ b ∧ b ≤ 57) ∨
    b = 43 ∨ b = 45 ∨ b = 46

instance (b : Nat) : Decidable (schemeContB b) := by
  unfold schemeContB
  infer_instance

theorem getSchemeAux_walk (orig r : Bytes) :
    ∀ mid i, 1 ≤ i →
      (∀ b ∈ mid, schemeContB b) →
      getSchemeAux orig (mid ++ 58 :: r) i =
        .ok (orig.take (i + mid.length), orig.drop (i + mid.length + 1)) := by
  intro mid
  induction mid with
  | nil =>
    intro i hi _
    rw [List.nil_append, getSchemeAux]
    rw [if_neg (by decide), if_neg (by decide),
      if_pos (by decide), if_neg (by simp; omega)]
    simp
  | cons d mid' ih =>
    intro i hi hcont
    have hd : schemeContB d := hcont d (by simp)
    rw [List.cons_append, getSchemeAux]
    have hrec := ih (i + 1) (by omega) (fun b hb => hcont b (by simp [hb]))
    rcases hd with hd | hd | hd | hd | hd | hd
    · rw [if_pos (by simp; omega), hrec]
      have : i + 1 + mid'.length = i + (mid'.length + 1) := by omega
      rw [this]
      simp
    · rw [if_pos (by simp; omega), hrec]
      have : i + 1 + mid'.length = i + (mid'.length + 1) := by omega
      rw [this]
      simp
    · rw [if_neg (by simp; omega), if_pos (by simp; omega),
        if_neg (by simp; omega), hrec]
      have : i + 1 + mid'.length = i + (mid'.length + 1) := by omega
      rw [this]
      simp
    · rw [if_neg (by simp; omega), if_pos (by simp [hd]),
        if_neg (by simp; omega), hrec]
      have : i + 1 + mid'.length = i + (mid'.length + 1) := by omega
      rw [this]
      simp
    · rw [if_neg (by simp; omega), if_pos (by simp [hd]),
        if_neg (by simp; omega), hrec]
      have : i + 1 + mid'.length = i + (mid'.length + 1) := by omega
      rw [this]
      simp
    · rw [if_neg (by simp; omega), if_pos (by simp [hd]),
        if_neg (by simp; omega), hrec]
      have : i + 1 + mid'.length = i + (mid'.length + 1) := by omega
      rw [this]
      simp

theorem getScheme_append (s r : Bytes) (c : Nat) (t : Bytes) (hs : s = c :: t)
    (hc : 97 ≤ c ∧ c ≤ 122) (hcont : ∀ b ∈ s, schemeContB b) :
    getScheme (s ++ 58 :: r) = .ok (s, r) := by
  subst hs
  rw [getScheme, List.cons_append, getSchemeAux]
  rw [if_pos (by simp; omega)]
  rw [show (t ++ 58 :: r : Bytes) = t ++ 58 :: r from rfl]
  rw [getSchemeAux_walk (c :: (t ++ 58 :: r)) r t 1 (by omega)
    (fun b hb => hcont b (by simp [hb]))]
  have htake : List.take (1 + t.length) (c :: (t ++ 58 :: r)) = c :: t := by
    rw [Nat.add_comm, List.take_succ_cons]
    have := take_len_add t (58 :: r) 0
    simp at this
    simp [this]
  have hdrop : List.drop (1 + t.length + 1) (c :: (t ++ 58 :: r)) = r := by
    rw [show (1 + t.length + 1) = (1 + t.length) + 1 from rfl, List.drop_succ_cons,
      Nat.add_comm]
    have := drop_len_add t (58 :: r) 1
    simp at this
    simp [this]
  rw [htake, hdrop]

theorem getSchemeAux_stop (orig : Bytes) :
    ∀ l i, (∀ x y, l = x ++ 58 :: y → ∃ b ∈ x, ¬schemeContB b) →
      getSchemeAux orig l i = .ok ([], orig) := by
  intro l
  induction l with
  | nil =>
    intro i _
    rw [getSchemeAux]
  | cons c rest ih =>
    intro i hcol
    have hrest : ∀ x y, rest = x ++ 58 :: y → (∃ b ∈ x, ¬schemeContB b) ∨
        ¬schemeContB c := by
      intro x y hxy
      rcases hcol (c :: x) y (by simp [hxy]) with ⟨b, hb, hnc⟩
      rcases List.mem_cons.mp hb with hb | hb
      · exact .inr (hb ▸ hnc)
      · exact .inl ⟨b, hb, hnc⟩
    by_cases hcc : schemeContB c
    · have hrest2 : ∀ x y, rest = x ++ 58 :: y → ∃ b ∈ x, ¬schemeContB b := by
        intro x y hxy
        rcases hrest x y hxy with ⟨b, hb, h⟩ | h
        · exact ⟨b, hb, h⟩
        · exact absurd hcc h
      rw [getSchemeAux]
      rcases hcc with hd | hd | hd | hd | hd | hd
      · rw [if_pos (by simp; omega)]
        exact ih (i + 1) hrest2
      · rw [if_pos (by simp; omega)]
        exact ih (i + 1) hrest2
      all_goals {
        rw [if_neg (by simp; omega)]
        rw [if_pos (by simp [hd])]
        by_cases hi : i = 0
        · rw [if_pos (by simp [hi])]
        · rw [if_neg (by simp [hi])]
          exact ih (i + 1) hrest2
      }
    · have hc58 : c ≠ 58 := by
        intro hh
        rcases hcol [] rest (by simp [hh]) with ⟨b, hb, _⟩
        simp at hb
      rw [getSchemeAux]
      rw [if_neg (by
        simp only [Bool.or_eq_true, Bool.and_eq_true, decide_eq_true_eq]
        intro hh
        exact hcc (by unfold schemeContB; omega))]
      rw [if_neg (by
        simp only [Bool.or_eq_true, Bool.and_eq_true, decide_eq_true_eq,
          beq_iff_eq]
        intro hh
        exact hcc (by unfold schemeContB; omega))]
      rw [if_neg (by simp [hc58])]

theorem getScheme_stop (s : Bytes)
    (h : ∀ x y, s = x ++ 58 :: y → ∃ b ∈ x, ¬schemeContB b) :
    getScheme s = .ok ([], s) := getSchemeAux_stop s s 0 h

/-- Letters, as the head of a scheme must be. -/
def isLetterB (c : Nat) : Prop := (65 ≤ c ∧ c ≤ 90) ∨ (97 ≤ c ∧ c ≤ 122)

theorem drop_take_succ {α : Type} :
    ∀ (l : List α) i c rest, l.drop i = c :: rest →
      l.take (i + 1) = l.take i ++ [c] ∧ l.drop (i + 1) = rest := by
  intro l
  induction l with
  | nil =>
    intro i c rest h
    simp at h
  | cons a l' ih =>
    intro i c rest h
    match i with
    | 0 =>
      simp at h
      obtain ⟨h1, h2⟩ := h
      subst h1 h2
      simp
    | j + 1 =>
      rw [List.drop_succ_cons] at h
      obtain ⟨ht, hd⟩ := ih j c rest h
      constructor
      · rw [List.take_succ_cons, List.take_succ_cons, ht]
        rfl
      · rw [List.drop_succ_cons]
        exact hd

theorem take_head {α : Type} (l : List α) (i : Nat) (hi : i ≠ 0) :
    (l.take i).head? = l.head? := by
  match l, i with
  | [], _ => simp
  | a :: l', 0 => exact absurd rfl hi
  | a :: l', j + 1 => simp

theorem getSchemeAux_chars (orig : Bytes) :
    ∀ l i a r, orig.drop i = l →
      (∀ b ∈ orig.take i, schemeContB b) →
      (i ≠ 0 → ∀ c, orig.head? = some c → isLetterB c) →
      getSchemeAux orig l i = .ok (a, r) →
      (a = [] ∨ ((∀ b ∈ a, schemeContB b) ∧
        ∀ c, a.head? = some c → isLetterB c)) ∧
      (∀ b ∈ r, b ∈ orig) := by
  intro l
  induction l with
  | nil =>
    intro i a r _ _ _ h
    rw [getSchemeAux] at h
    have h1 := Except.ok.inj h
    have hfst : ([] : Bytes) = a := congrArg Prod.fst h1
    have hsnd : orig = r := congrArg Prod.snd h1
    refine ⟨.inl hfst.symm, ?_⟩
    intro b hb
    rw [← hsnd] at hb
    exact hb
  | cons c rest ih =>
    intro i a r hdrop htake hhead h
    obtain ⟨htk1, hdp1⟩ := drop_take_succ orig i c rest hdrop
    rw [getSchemeAux] at h
    by_cases hL : (65 ≤ c ∧ c ≤ 90) ∨ (97 ≤ c ∧ c ≤ 122)
    · rw [if_pos (by
        simp only [Bool.or_eq_true, Bool.and_eq_true, decide_eq_true_eq]
        omega)] at h
      refine ih (i + 1) a r hdp1 ?_ ?_ h
      · intro b hb
        rw [htk1] at hb
        rcases List.mem_append.mp hb with hb | hb
        · exact htake b hb
        · have : b = c := by simpa using hb
          subst this
          unfold schemeContB
          omega
      · intro _ d hd
        by_cases hi : i = 0
        · subst hi
          simp at hdrop
          rw [hdrop] at hd
          simp at hd
          subst hd
          unfold isLetterB
          omega
        · exact hhead hi d hd
    · rw [if_neg (by
        simp only [Bool.or_eq_true, Bool.and_eq_true, decide_eq_true_eq]
        intro hh
        exact hL (by omega))] at h
      by_cases hD : (48 ≤ c ∧ c ≤ 57) ∨ c = 43 ∨ c = 45 ∨ c = 46
      · rw [if_pos (by
          simp only [Bool.or_eq_true, Bool.and_eq_true, decide_eq_true_eq,
            beq_iff_eq]
          omega)] at h
        by_cases hi : i = 0
        · rw [if_pos (by simp [hi])] at h
          have h1 := Except.ok.inj h
          have hfst : ([] : Bytes) = a := congrArg Prod.fst h1
          have hsnd : orig = r := congrArg Prod.snd h1
          refine ⟨.inl hfst.symm, ?_⟩
          intro b hb
          rw [← hsnd] at hb
          exact hb
        · rw [if_neg (by simp [hi])] at h
          refine ih (i + 1) a r hdp1 ?_ ?_ h
          · intro b hb
            rw [htk1] at hb
            rcases List.mem_append.mp hb with hb | hb
            · exact htake b hb
            · have : b = c := by simpa using hb
              subst this
              unfold schemeContB
              omega
          · intro _ d hd
            exact hhead hi d hd
      · rw [if_neg (by
          simp only [Bool.or_eq_true, Bool.and_eq_true, decide_eq_true_eq,
            beq_iff_eq]
          intro hh
          exact hD (by omega))] at h
        by_cases h58 : c = 58
        · rw [if_pos (by simp [h58])] at h
          by_cases hi : i = 0
          · rw [if_pos (by simp [hi])] at h
            exact absurd h (by simp)
          · rw [if_neg (by simp [hi])] at h
            have h1 := Except.ok.inj h
            have ha' : orig.take i = a := congrArg Prod.fst h1
            have hr' : orig.drop (i + 1) = r := congrArg Prod.snd h1
            have ha : a = orig.take i := ha'.symm
            have hr : r = orig.drop (i + 1) := hr'.symm
            constructor
            · refine .inr ⟨?_, ?_⟩
              · intro b hb
                exact htake b (ha ▸ hb)
              · intro d hd
                rw [ha, take_head orig i hi] at hd
                exact hhead hi d hd
            · intro b hb
              rw [hr] at hb
              exact List.drop_subset _ _ hb
        · rw [if_neg (by simp [h58])] at h
          have h1 := Except.ok.inj h
          have hfst : ([] : Bytes) = a := congrArg Prod.fst h1
          have hsnd : orig = r := congrArg Prod.snd h1
          refine ⟨.inl hfst.symm, ?_⟩
          intro b hb
          rw [← hsnd] at hb
          exact hb

theorem getScheme_chars (s a r : Bytes) (h : getScheme s = .ok (a, r)) :
    (a = [] ∨ ((∀ b ∈ a, schemeContB b) ∧
      ∀ c, a.head? = some c → isLetterB c)) ∧ (∀ b ∈ r, b ∈ s) := by
  refine getSchemeAux_chars s s 0 a r (by simp) (by simp) (by simp) h

/-- C3 (amended): for attribute keys other than `http.url`, under a ruleset
with no value rules and whose key rules are all bound to the Redact
strategy, `RedactAttribute` is idempotent on the attribute string: applying
it to the outgoing value of a first application leaves that value
unchanged. -/
theorem c3_idempotent_redact_only (m : Matcher) (key value : Bytes)
    (hkey : key ≠ bytes "http.url") (hvr : m.valueRegexs = [])
    (hkr : ∀ r ∈ m.keyRegexs, r.redactor = .redact)
    (hval : validBytes value) :
    (RedactAttribute m key (RedactAttribute m key value).2).2 =
      (RedactAttribute m key value).2 := by
  have hurl : ¬ (key = urlAttributeStr) := hkey
  have htriv : (RedactAttribute m key value).2 = value →
      (RedactAttribute m key (RedactAttribute m key value).2).2 =
        (RedactAttribute m key value).2 := by
    intro hout
    rw [hout]
    exact hout
  by_cases hv : value = []
  · subst hv
    rfl
  cases hq : parseQueryV value with
  | none =>
    apply htriv
    unfold RedactAttribute
    rw [if_neg hv, if_neg hurl, hq]
  | some groups =>
    obtain ⟨ps, hps, hgp⟩ : ∃ ps, parsePairs value = some ps ∧ groups = groupParams ps := by
      unfold parseQueryV at hq
      cases hps : parsePairs value with
      | none => rw [hps] at hq; simp at hq
      | some ps =>
        rw [hps] at hq
        simp only [Option.map_some'] at hq
        exact ⟨ps, rfl, (Option.some.inj hq).symm⟩
    subst hgp
    have hprops := groupParams_props ps
    have hvalid := groupParams_valid ps (parsePairs_valid value ps hval hps)
    by_cases hred : (procAll m key false (groupParams ps)).red = []
    · apply htriv
      unfold RedactAttribute
      rw [if_neg hv, if_neg hurl, hq]
      simp only []
      rw [if_neg (fun hc => hc hred)]
    · have hout1 : (RedactAttribute m key value).2 =
          valuesEncode ((groupParams ps).map (passOut m)) := by
        unfold RedactAttribute
        rw [if_neg hv, if_neg hurl, hq]
        simp only []
        rw [if_pos hred,
          procAll_vals_restricted m key false (groupParams ps) hvr hkr hprops.1 hprops.2]
      have hv1nd : (keysOf ((groupParams ps).map (passOut m))).Nodup := by
        rw [keysOf_map_passOut]
        exact hprops.1
      have hv1ne : ∀ g ∈ (groupParams ps).map (passOut m), g.2 ≠ [] := by
        intro g hg
        obtain ⟨g0, hg0, rfl⟩ := List.mem_map.mp hg
        exact passOut_snd_ne m g0 (hprops.2 g0 hg0)
      have hv1valid : ∀ g ∈ (groupParams ps).map (passOut m),
          validBytes g.1 ∧ ∀ x ∈ g.2, validBytes x := by
        intro g hg
        obtain ⟨g0, hg0, rfl⟩ := List.mem_map.mp hg
        exact passOut_valid m g0 (hvalid g0 hg0)
      have hsortperm := sortGroups_perm ((groupParams ps).map (passOut m))
      have hsortnd : (keysOf (sortGroups ((groupParams ps).map (passOut m)))).Nodup :=
        ((hsortperm.map Prod.fst).nodup_iff).mpr hv1nd
      have hsortne : ∀ g ∈ sortGroups ((groupParams ps).map (passOut m)), g.2 ≠ [] :=
        fun g hg => hv1ne g (hsortperm.mem_iff.mp hg)
      have hsortvalid : ∀ g ∈ sortGroups ((groupParams ps).map (passOut m)),
          validBytes g.1 ∧ ∀ x ∈ g.2, validBytes x :=
        fun g hg => hv1valid g (hsortperm.mem_iff.mp hg)
      have hpairs2valid :
          ∀ p ∈ flatPairs (sortGroups ((groupParams ps).map (passOut m))),
            validBytes p.1 ∧ validBytes p.2 := by
        intro p hp
        unfold flatPairs at hp
        rw [List.mem_flatMap] at hp
        obtain ⟨e, he, hpe⟩ := hp
        obtain ⟨x, hx, hxx⟩ := List.mem_map.mp hpe
        subst hxx
        exact ⟨(hsortvalid e he).1, (hsortvalid e he).2 x hx⟩
      have hgroups2 : parseQueryV (valuesEncode ((groupParams ps).map (passOut m))) =
          some (sortGroups ((groupParams ps).map (passOut m))) := by
        unfold parseQueryV
        rw [valuesEncode_eq_segs, parsePairs_encodedPairs _ hpairs2valid,
          Option.map_some', groupParams_flatPairs _ hsortnd hsortne]
      have hself : (sortGroups ((groupParams ps).map (passOut m))).map (passOut m) =
          sortGroups ((groupParams ps).map (passOut m)) := by
        apply map_self_of_mem
        intro g hg
        obtain ⟨g0, hg0, rfl⟩ := List.mem_map.mp (hsortperm.mem_iff.mp hg)
        exact passOut_idem m g0
      rw [hout1]
      by_cases hnil2 : valuesEncode ((groupParams ps).map (passOut m)) = []
      · rw [hnil2]
        rfl
      · unfold RedactAttribute
        rw [if_neg hnil2, if_neg hurl, hgroups2]
        simp only []
        split
        · rw [procAll_vals_restricted m key false _ hvr hkr hsortnd hsortne, hself,
            valuesEncode_sortGroups _ hv1nd]
        · rfl

/-- C3 witness: the Redact-only password ruleset on the sensitive-key
scenario input satisfies the hypotheses, and a second application of the
filter leaves the outgoing value unchanged. -/
theorem c3_idempotent_redact_only_witness :
    ((bytes "password" : Bytes) ≠ bytes "http.url") ∧
    passwordKeyMatcher.valueRegexs = [] ∧
    (∀ r ∈ passwordKeyMatcher.keyRegexs, r.redactor = .redact) ∧
    validBytes (bytes "user=dave&password=mypw$") ∧
    (RedactAttribute passwordKeyMatcher (bytes "password")
        (RedactAttribute passwordKeyMatcher (bytes "password")
          (bytes "user=dave&password=mypw$")).2).2 =
      (RedactAttribute passwordKeyMatcher (bytes "password")
        (bytes "user=dave&password=mypw$")).2 :=
  ⟨by decide, rfl,
   by
     intro r hr
     rw [List.mem_singleton.mp hr],
   by decide,
   c3_idempotent_redact_only passwordKeyMatcher (bytes "password")
     (bytes "user=dave&password=mypw$") (by decide) rfl
     (by
       intro r hr
       rw [List.mem_singleton.mp hr])
     (by decide)⟩
